import Mathlib

/-!
Verification of the skip-list implementation in `SkipList.py`.

The Python heap of `SkipListNode` objects is embedded as an arena: `nodes` is
an append-only list of nodes, and a forward pointer is `none` (Python `None`)
or `some nid` (a reference to `nodes[nid]`).  A deleted node stays in the
arena but becomes unreachable, exactly as an unlinked Python object does.
The header sentinel keeps only its forward array (`headerForward`); its key
`float('-inf')` is never consulted by any operation of the source, so it is
not modelled.  The unbounded Python `while` loops over forward pointers are
given explicit fuel; `nodes.length + 1` steps are enough for every state
satisfying the structural invariant proved below, so on those states the
fueled loops compute exactly what the Python loops compute.  Keys are `Int`
(the source only requires `<` and `==` on them), values are an arbitrary
type `V`, and the draws of `random.random()` are an arbitrary stream of
rationals, universally quantified in every theorem.
-/

set_option maxHeartbeats 1000000

namespace SkipListVerify

/-- A forward pointer: `none` models Python `None`, `some nid` a node. -/
abbrev NodeRef := Option Nat

/-- Traversal position: the header sentinel or a node of the arena. -/
inductive Pos where
  | header : Pos
  | node : Nat → Pos
deriving DecidableEq

/-- `SkipListNode`: key, value and the per-level forward pointers. -/
structure Node (V : Type) where
  key : Int
  value : V
  forward : List NodeRef
deriving DecidableEq

/-- The `SkipList` state: constructor-time constants `maxLevel` and
`probability`, the current `level`, the header's forward array and the
arena of nodes. -/
structure SkipList (V : Type) where
  maxLevel : Nat
  probability : Rat
  level : Nat
  headerForward : List NodeRef
  nodes : List (Node V)
deriving DecidableEq

variable {V : Type}

/-- `SkipList.__init__`: level 0, header forward array of `max_level + 1`
null pointers, no nodes. -/
def SkipList.empty (V : Type) (maxLevel : Nat) (probability : Rat) : SkipList V :=
  { maxLevel := maxLevel
    probability := probability
    level := 0
    headerForward := List.replicate (maxLevel + 1) none
    nodes := [] }

/-- The header's forward pointer at level `i`. -/
def SkipList.hfwd (s : SkipList V) (i : Nat) : NodeRef :=
  s.headerForward.getD i none

/-- The forward pointer at level `i` of node `nid`, or `none` when `nid` is
not in the arena. -/
def SkipList.fwdOf (s : SkipList V) (nid i : Nat) : Option NodeRef :=
  (s.nodes[nid]?).map (fun nd => nd.forward.getD i none)

/-- The forward pointer at level `i` of a traversal position. -/
def SkipList.fwdAt (s : SkipList V) (p : Pos) (i : Nat) : NodeRef :=
  match p with
  | .header => s.hfwd i
  | .node nid =>
    match s.nodes[nid]? with
    | some nd => nd.forward.getD i none
    | none => none

/-- The key of node `nid` (with an irrelevant default for ids outside the
arena, which never occur in well-formed states). -/
def SkipList.keyD (s : SkipList V) (nid : Nat) : Int :=
  match s.nodes[nid]? with
  | some nd => nd.key
  | none => 0

/-- One level of the traversal: `while current.forward[i] is not None and
current.forward[i].key < key: current = current.forward[i]`. -/
def SkipList.advance (s : SkipList V) (K : Int) (i : Nat) : Nat → Pos → Pos
  | 0, p => p
  | fuel + 1, p =>
    match s.fwdAt p i with
    | none => p
    | some nid =>
      match s.nodes[nid]? with
      | none => p
      | some nd => if nd.key < K then s.advance K i fuel (.node nid) else p

/-- The descending `for i in range(self.level, -1, -1)` loop of `search`:
the returned position is `current` after the level-0 pass. -/
def SkipList.descendPos (s : SkipList V) (K : Int) : Nat → Pos → Pos
  | 0, p => s.advance K 0 (s.nodes.length + 1) p
  | i + 1, p => s.descendPos K i (s.advance K (i + 1) (s.nodes.length + 1) p)

/-- The descending loop of `insert`/`delete`: additionally records the
`update` table; the returned list has `update[j]` at index `j`. -/
def SkipList.descend (s : SkipList V) (K : Int) : Nat → Pos → Pos × List Pos
  | 0, p =>
    let q := s.advance K 0 (s.nodes.length + 1) p
    (q, [q])
  | i + 1, p =>
    let q := s.advance K (i + 1) (s.nodes.length + 1) p
    let ru := s.descend K i q
    (ru.1, ru.2 ++ [q])

/-- `SkipList.search`. -/
def SkipList.search (s : SkipList V) (K : Int) : Option V :=
  let p := s.descendPos K s.level .header
  match s.fwdAt p 0 with
  | none => none
  | some nid =>
    match s.nodes[nid]? with
    | none => none
    | some nd => if nd.key = K then some nd.value else none

/-- The loop body of `random_level`, with fuel; `max_level.toNat` units of
fuel make the fueled loop agree with the unbounded Python loop, because the
guard `level < max_level` bounds the iteration count by exactly that. -/
def rlGo (p : Rat) (maxLevel : Int) (draws : Nat → Rat) : Nat → Nat → Nat → Nat
  | 0, level, _ => level
  | fuel + 1, level, k =>
    if draws k < p ∧ (level : Int) < maxLevel then
      rlGo p maxLevel draws fuel (level + 1) (k + 1)
    else level

/-- `SkipList.random_level`: starting at 0, promote while the next draw is
below `p` and `level < max_level`. -/
def random_level (p : Rat) (maxLevel : Int) (draws : Nat → Rat) : Nat :=
  rlGo p maxLevel draws maxLevel.toNat 0 0

/-- Overwrite the header's forward pointer at level `i`. -/
def SkipList.setHeaderFwd (s : SkipList V) (i : Nat) (r : NodeRef) : SkipList V :=
  { s with headerForward := s.headerForward.set i r }

/-- Overwrite node `nid`'s forward pointer at level `i`. -/
def SkipList.setNodeFwd (s : SkipList V) (nid i : Nat) (r : NodeRef) : SkipList V :=
  match s.nodes[nid]? with
  | some nd => { s with nodes := s.nodes.set nid { nd with forward := nd.forward.set i r } }
  | none => s

/-- Overwrite a position's forward pointer at level `i`. -/
def SkipList.setFwd (s : SkipList V) (p : Pos) (i : Nat) (r : NodeRef) : SkipList V :=
  match p with
  | .header => s.setHeaderFwd i r
  | .node nid => s.setNodeFwd nid i r

/-- The splicing loop of `insert`: for each level `i` below the counter,
`new_node.forward[i] = update[i].forward[i]; update[i].forward[i] = new_node`,
in ascending level order exactly as in the source. -/
def SkipList.splice (upd : List Pos) (newId : Nat) : Nat → SkipList V → SkipList V
  | 0, s => s
  | c + 1, s =>
    let s1 := SkipList.splice upd newId c s
    let pred := upd.getD c .header
    let r := s1.fwdAt pred c
    let s2 := s1.setNodeFwd newId c r
    s2.setFwd pred c (some newId)

/-- The not-found branch of `insert`: extend the update table with the
header on fresh levels, raise `level`, allocate the node and splice. -/
def SkipList.insertFresh (s : SkipList V) (K : Int) (v : V) (newLevel : Nat)
    (upd : List Pos) : SkipList V :=
  let upd2 := if s.level < newLevel then upd ++ List.replicate (newLevel - s.level) Pos.header else upd
  let s1 : SkipList V := if s.level < newLevel then { s with level := newLevel } else s
  let newId := s1.nodes.length
  let s2 := { s1 with nodes := s1.nodes ++ [⟨K, v, List.replicate (newLevel + 1) none⟩] }
  SkipList.splice upd2 newId (newLevel + 1) s2

/-- `SkipList.insert` with the freshly drawn level passed explicitly.  The
source draws `random_level()` after the found-check; since the found branch
never uses the draw, passing the level as an argument is observationally
identical. -/
def SkipList.insertAt (s : SkipList V) (K : Int) (v : V) (newLevel : Nat) : SkipList V :=
  let pu := s.descend K s.level .header
  match s.fwdAt pu.1 0 with
  | some nid =>
    match s.nodes[nid]? with
    | some nd =>
      if nd.key = K then { s with nodes := s.nodes.set nid { nd with value := v } }
      else s.insertFresh K v newLevel pu.2
    | none => s.insertFresh K v newLevel pu.2
  | none => s.insertFresh K v newLevel pu.2

/-- `SkipList.insert`, consuming a stream of random draws. -/
def SkipList.insert (s : SkipList V) (K : Int) (v : V) (draws : Nat → Rat) : SkipList V :=
  s.insertAt K v (random_level s.probability (s.maxLevel : Int) draws)

/-- The unlinking loop of `delete`: for ascending `i`, stop at the first
level whose `update[i].forward[i]` is not the target (Python `!=` on nodes
is identity, so a `None` pointer also stops the loop); otherwise redirect it
to the target's forward pointer.  The Bool records that the loop stopped. -/
def SkipList.unlink (upd : List Pos) (tid : Nat) : Nat → SkipList V → SkipList V × Bool
  | 0, s => (s, false)
  | c + 1, s =>
    let sb := SkipList.unlink upd tid c s
    if sb.2 then sb
    else
      match sb.1.fwdAt (upd.getD c .header) c with
      | some n =>
        if n = tid then
          (sb.1.setFwd (upd.getD c .header) c (sb.1.fwdAt (.node tid) c), false)
        else (sb.1, true)
      | none => (sb.1, true)

/-- The level-shrinking loop of `delete`: `while self.level > 0 and
self.header.forward[self.level] is None: self.level -= 1`. -/
def SkipList.shrinkFrom (s : SkipList V) : Nat → Nat
  | 0 => 0
  | l + 1 => if s.hfwd (l + 1) = none then s.shrinkFrom l else l + 1

/-- `SkipList.delete`. -/
def SkipList.delete (s : SkipList V) (K : Int) : Bool × SkipList V :=
  let pu := s.descend K s.level .header
  match s.fwdAt pu.1 0 with
  | some nid =>
    match s.nodes[nid]? with
    | some nd =>
      if nd.key = K then
        let s1 := (SkipList.unlink pu.2 nid (s.level + 1) s).1
        (true, { s1 with level := s1.shrinkFrom s1.level })
      else (false, s)
    | none => (false, s)
  | none => (false, s)

/-- The traversal of `to_list`, with fuel. -/
def SkipList.walk (s : SkipList V) : Nat → NodeRef → List (Int × V)
  | 0, _ => []
  | _ + 1, none => []
  | fuel + 1, some nid =>
    match s.nodes[nid]? with
    | none => []
    | some nd => (nd.key, nd.value) :: s.walk fuel (nd.forward.getD 0 none)

/-- `SkipList.to_list`: walk the level-0 chain collecting pairs. -/
def SkipList.to_list (s : SkipList V) : List (Int × V) :=
  s.walk (s.nodes.length + 1) (s.hfwd 0)

/-- The counting traversal of `size`, with fuel. -/
def SkipList.countWalk (s : SkipList V) : Nat → NodeRef → Nat
  | 0, _ => 0
  | _ + 1, none => 0
  | fuel + 1, some nid =>
    match s.nodes[nid]? with
    | none => 0
    | some nd => s.countWalk fuel (nd.forward.getD 0 none) + 1

/-- `SkipList.size`: walk the level-0 chain counting nodes. -/
def SkipList.size (s : SkipList V) : Nat :=
  s.countWalk (s.nodes.length + 1) (s.hfwd 0)

/-- The constructor with an arbitrary integer `max_level`, exactly as Python
accepts it: `[None] * (max_level + 1)` is the empty list when
`max_level + 1 ≤ 0`.  No argument is checked anywhere in `__init__`. -/
structure SkipListI (V : Type) where
  maxLevel : Int
  probability : Rat
  level : Nat
  headerForward : List NodeRef
  nodes : List (Node V)
deriving DecidableEq

/-- `SkipList.__init__` over unconstrained arguments: it unconditionally
produces an instance; no validation is performed in the source. -/
def SkipListI.init (V : Type) (maxLevel : Int) (probability : Rat) : SkipListI V :=
  { maxLevel := maxLevel
    probability := probability
    level := 0
    headerForward := List.replicate (maxLevel + 1).toNat none
    nodes := [] }

/-! ### The abstract model: a sorted association list -/

/-- Linear lookup in an association list (first match). -/
def absSearch (K : Int) : List (Int × V) → Option V
  | [] => none
  | (k, v) :: t => if k = K then some v else absSearch K t

/-- Sorted-association-list insertion with replacement on equal key. -/
def absInsert (K : Int) (v : V) : List (Int × V) → List (Int × V)
  | [] => [(K, v)]
  | (k, w) :: t =>
    if K < k then (K, v) :: (k, w) :: t
    else if K = k then (K, v) :: t
    else (k, w) :: absInsert K v t

/-- Association-list deletion of the first entry with the given key,
reporting whether one was found. -/
def absDelete (K : Int) : List (Int × V) → Bool × List (Int × V)
  | [] => (false, [])
  | (k, w) :: t =>
    if k = K then (true, t)
    else ((absDelete K t).1, (k, w) :: (absDelete K t).2)

/-! ### Operation sequences -/

/-- One public operation of the skip list. -/
inductive Op (V : Type) where
  | ins : Int → V → Op V
  | del : Int → Op V
  | find : Int → Op V
  | count : Op V
  | dump : Op V

/-- One observable result returned to the caller. -/
inductive Out (V : Type) where
  | val : Option V → Out V
  | flag : Bool → Out V
  | num : Nat → Out V
  | seq : List (Int × V) → Out V
deriving DecidableEq

/-- Run one operation; `draws` is the random stream it may consume. -/
def stepOp (s : SkipList V) (draws : Nat → Rat) : Op V → Out V × SkipList V
  | .ins k v => (.flag true, s.insert k v draws)
  | .del k =>
    let bs := s.delete k
    (.flag bs.1, bs.2)
  | .find k => (.val (s.search k), s)
  | .count => (.num s.size, s)
  | .dump => (.seq s.to_list, s)

/-- Run a sequence of operations; `ds n` is the random stream consumed by
the `n`-th operation. -/
def runOps : List (Op V) → (Nat → Nat → Rat) → SkipList V → List (Out V) × SkipList V
  | [], _, s => ([], s)
  | op :: t, ds, s =>
    let os := stepOp s (ds 0) op
    let rest := runOps t (fun n => ds (n + 1)) os.2
    (os.1 :: rest.1, rest.2)

/-- States reachable from a freshly constructed skip list by inserts and
deletes with arbitrary random draws. -/
inductive Reachable (maxLevel : Nat) (p : Rat) : SkipList V → Prop where
  | empty : Reachable maxLevel p (SkipList.empty V maxLevel p)
  | ins {s : SkipList V} (K : Int) (v : V) (draws : Nat → Rat) :
      Reachable maxLevel p s → Reachable maxLevel p (s.insert K v draws)
  | del {s : SkipList V} (K : Int) :
      Reachable maxLevel p s → Reachable maxLevel p (s.delete K).2

/-! ### Proof infrastructure: chain segments and the structural invariant -/

/-- `Seg s i st l en`: following level-`i` forward pointers from the
reference `st` visits exactly the nodes of `l` and ends with the reference
`en`.  A full level-`i` chain is `Seg s i (s.hfwd i) l none`. -/
inductive Seg (s : SkipList V) (i : Nat) : NodeRef → List Nat → NodeRef → Prop where
  | nil (st : NodeRef) : Seg s i st [] st
  | cons {nid : Nat} {nxt : NodeRef} {l : List Nat} {en : NodeRef} :
      s.fwdOf nid i = some nxt → Seg s i nxt l en → Seg s i (some nid) (nid :: l) en

/-- Boolean "key of this node is below `K`", the guard of every traversal
loop. -/
def ltK (s : SkipList V) (K : Int) (nid : Nat) : Bool :=
  decide (s.keyD nid < K)

/-- The position reached by walking a list of nodes while their keys are
below `K`; the specification of one `advance` pass. -/
def stopAt (s : SkipList V) (K : Int) : Pos → List Nat → Pos
  | p, [] => p
  | p, n :: t => if s.keyD n < K then stopAt s K (.node n) t else p

/-- `PredAt s K j q L`: relative to the full level-`j` chain `L`, the
position `q` is the last one whose key is below `K` — the value the descent
records in `update[j]`. -/
structure PredAt (s : SkipList V) (K : Int) (j : Nat) (q : Pos) (L : List Nat) : Prop where
  split_pre : Seg s j (s.hfwd j) (L.takeWhile (ltK s K)) (s.fwdAt q j)
  split_post : Seg s j (s.fwdAt q j) (L.dropWhile (ltK s K)) none
  pos : (q = Pos.header ∧ L.takeWhile (ltK s K) = []) ∨
    (∃ m, (L.takeWhile (ltK s K)).getLast? = some m ∧ q = Pos.node m)

/-- Precondition of one descent pass at level `i`: the start position is the
header, or a member of the level-`i` chain whose key is below `K`. -/
def GoodStart (s : SkipList V) (K : Int) (i : Nat) (p : Pos) : Prop :=
  p = Pos.header ∨ ∃ m, p = Pos.node m ∧ s.keyD m < K ∧
    ∀ L, Seg s i (s.hfwd i) L none → m ∈ L

/-- The `(key, value)` entries of the arena nodes listed in `l`. -/
def entriesOf (s : SkipList V) (l : List Nat) : List (Int × V) :=
  l.flatMap (fun nid =>
    match s.nodes[nid]? with
    | some nd => [(nd.key, nd.value)]
    | none => [])

/-- The structural invariant of every reachable skip-list state. -/
structure WF (s : SkipList V) : Prop where
  hlen : s.headerForward.length = s.maxLevel + 1
  hlev : s.level ≤ s.maxLevel
  chains : ∀ i, ∃ l, Seg s i (s.hfwd i) l none
  sorted : ∀ i l, Seg s i (s.hfwd i) l none → l.Pairwise (fun a b => s.keyD a < s.keyD b)
  subset : ∀ i l l', Seg s (i + 1) (s.hfwd (i + 1)) l' none →
    Seg s i (s.hfwd i) l none → ∀ n ∈ l', n ∈ l
  above : ∀ i, s.level < i → s.hfwd i = none
  top : s.level = 0 ∨ s.hfwd s.level ≠ none
  chain_len : ∀ i l, Seg s i (s.hfwd i) l none → ∀ nid ∈ l, ∀ nd,
    s.nodes[nid]? = some nd → i < nd.forward.length

/-- Loop invariant of the splicing pass of `insert`.  `base` is the state
before the insert, `s2` the state with the fresh node already appended at
index `newId`, `Ls j` the level-`j` chain of `base`, and `sc` the state
after the first `c` splice steps: levels `≥ c` are untouched, levels `< c`
already link the new node between the prefix of keys below `K` and the
rest, and nothing else (keys, values, lengths) has changed. -/
structure SpliceInv (base s2 : SkipList V) (K : Int) (newId : Nat)
    (Ls : Nat → List Nat) (c : Nat) (sc : SkipList V) : Prop where
  hflen : ∀ (x : Nat), (sc.nodes[x]?).map (fun nd => nd.forward.length) =
    (s2.nodes[x]?).map (fun nd => nd.forward.length)
  hhlen : sc.headerForward.length = s2.headerForward.length
  hnlen : sc.nodes.length = s2.nodes.length
  hkey : ∀ x, sc.keyD x = s2.keyD x
  hentries : ∀ l, entriesOf sc l = entriesOf s2 l
  hfwd_hi : ∀ j, c ≤ j → ∀ x, sc.fwdOf x j = s2.fwdOf x j
  hhfwd_hi : ∀ j, c ≤ j → sc.hfwd j = s2.hfwd j
  hchain_lo : ∀ j, j < c → Seg sc j (sc.hfwd j)
    ((Ls j).takeWhile (ltK base K) ++ newId :: (Ls j).dropWhile (ltK base K)) none

/-- Loop invariant of the unlinking pass of `delete`.  `base` is the state
before the delete, `tid` the node being removed (whose key is the searched
key), `Ls j` the level-`j` chain of `base`, and `ucb` the state/flag pair
after the first `c` iterations.  Levels processed with a write (all levels
below `c` while the target is present at every level so far) carry the
chain with `tid` cut out; all other levels are untouched; the flag records
that the loop stopped early. -/
structure UnlinkInv (base : SkipList V) (K : Int) (tid : Nat)
    (Ls : Nat → List Nat) (c : Nat) (ucb : SkipList V × Bool) : Prop where
  hflen : ∀ (x : Nat), (ucb.1.nodes[x]?).map (fun nd => nd.forward.length) =
    (base.nodes[x]?).map (fun nd => nd.forward.length)
  hhlen : ucb.1.headerForward.length = base.headerForward.length
  hnlen : ucb.1.nodes.length = base.nodes.length
  hkey : ∀ x, ucb.1.keyD x = base.keyD x
  hentries : ∀ l, entriesOf ucb.1 l = entriesOf base l
  hmisc : ucb.1.maxLevel = base.maxLevel ∧ ucb.1.level = base.level ∧
    ucb.1.probability = base.probability
  hflag : ucb.2 = true ↔ ∃ j, j < c ∧ tid ∉ Ls j
  hkeep : ∀ j, ¬(j < c ∧ ∀ j', j' ≤ j → tid ∈ Ls j') →
    (∀ x, ucb.1.fwdOf x j = base.fwdOf x j) ∧ ucb.1.hfwd j = base.hfwd j
  hdone : ∀ j, (j < c ∧ ∀ j', j' ≤ j → tid ∈ Ls j') →
    Seg ucb.1 j (ucb.1.hfwd j)
      ((Ls j).takeWhile (ltK base K) ++ ((Ls j).dropWhile (ltK base K)).tail) none

/-! ### The concrete six-insert scenario (claim C5) -/

/-- The demo scenario's state after the six inserts, with `max_level = 16`
and `probability = 1/2` and arbitrary draw streams for each insert. -/
def scenarioInserted (d1 d2 d3 d4 d5 d6 : Nat → Rat) : SkipList String :=
  ((((((SkipList.empty String 16 (1/2)).insert 10 "Apple" d1).insert 20
      "Banana" d2).insert 5 "Cherry" d3).insert 30 "Date" d4).insert 15
      "Elderberry" d5).insert 25 "Fig" d6

/-! ### Basic facts about `random_level` (claim C7) -/

theorem rlGo_le (p : Rat) (maxLevel : Int) (draws : Nat → Rat) :
    ∀ fuel (level k : Nat), (level : Int) ≤ maxLevel →
      (rlGo p maxLevel draws fuel level k : Int) ≤ maxLevel := by
  intro fuel
  induction fuel with
  | zero => intro level k h; simpa [rlGo] using h
  | succ n ih =>
    intro level k h
    rw [rlGo]
    split
    · next hc => exact ih (level + 1) (k + 1) (by exact_mod_cast hc.2)
    · simpa using h

/-- Claim C7: for every configured `max_level ≥ 0` and every stream of
draws, `random_level` returns a level in `[0, max_level]` (promotion is
silently clamped at `max_level`); the function is total, so it terminates
on every input. -/
theorem C7_random_level_range (p : Rat) (maxLevel : Int) (draws : Nat → Rat)
    (h : 0 ≤ maxLevel) :
    0 ≤ (random_level p maxLevel draws : Int) ∧
      (random_level p maxLevel draws : Int) ≤ maxLevel :=
  ⟨Int.ofNat_nonneg _, rlGo_le p maxLevel draws maxLevel.toNat 0 0 h⟩

theorem C7_random_level_range_witness :
    0 ≤ (random_level (1/2) 3 (fun _ => 0) : Int) ∧
      (random_level (1/2) 3 (fun _ => 0) : Int) ≤ 3 :=
  C7_random_level_range (1/2) 3 (fun _ => 0) (by decide)

/-! ### The constructor performs no validation (claim C8) -/

/-- Counterexample to claim C8: constructing with `max_level = -1` and
`probability = 2` — both outside the claimed legal ranges — is not
rejected: the constructor returns an instance recording exactly these
values, with an empty header forward array. -/
theorem C8_counterexample :
    (SkipListI.init Unit (-1) 2).maxLevel = -1 ∧
      (SkipListI.init Unit (-1) 2).probability = 2 ∧
      (SkipListI.init Unit (-1) 2).headerForward = [] :=
  ⟨rfl, rfl, rfl⟩

/-- Claim C8 as amended: the constructor accepts any `max_level` and
`probability` without any check, recording them unchanged; a negative
`max_level` produces a header with no forward slots at all, so the
misconfiguration is only discovered by later operations, never at
construction time. -/
theorem C8_init_unvalidated (V : Type) (maxLevel : Int) (probability : Rat) :
    (SkipListI.init V maxLevel probability).maxLevel = maxLevel ∧
      (SkipListI.init V maxLevel probability).probability = probability ∧
      (SkipListI.init V maxLevel probability).headerForward.length = (maxLevel + 1).toNat ∧
      ((SkipListI.init V maxLevel probability).headerForward = [] ↔ maxLevel < 0) := by
  refine ⟨rfl, rfl, List.length_replicate _ _, ?_⟩
  rw [SkipListI.init]
  constructor
  · intro h
    have : (maxLevel + 1).toNat = 0 := by
      simpa using congrArg List.length h
    omega
  · intro h
    have : (maxLevel + 1).toNat = 0 := by omega
    simp [this]

/-! ### Segment lemmas -/

theorem Seg.append {s : SkipList V} {i : Nat} {st m en : NodeRef} {l1 l2 : List Nat}
    (h1 : Seg s i st l1 m) (h2 : Seg s i m l2 en) : Seg s i st (l1 ++ l2) en := by
  induction h1 with
  | nil => simpa using h2
  | cons hf _ ih => exact Seg.cons hf (ih h2)

theorem Seg.split {s : SkipList V} {i : Nat} {st en : NodeRef} {l1 l2 : List Nat}
    (h : Seg s i st (l1 ++ l2) en) : ∃ m, Seg s i st l1 m ∧ Seg s i m l2 en := by
  induction l1 generalizing st with
  | nil => exact ⟨st, Seg.nil st, by simpa using h⟩
  | cons a t ih =>
    cases h with
    | cons hf ht =>
      obtain ⟨m, ha, hb⟩ := ih ht
      exact ⟨m, Seg.cons hf ha, hb⟩

theorem Seg.det {s : SkipList V} {i : Nat} {st : NodeRef} {l l' : List Nat}
    (h1 : Seg s i st l none) (h2 : Seg s i st l' none) : l = l' := by
  induction l generalizing st l' with
  | nil =>
    cases h1
    cases h2
    rfl
  | cons a t ih =>
    cases h1 with
    | cons hf ht =>
      cases h2 with
      | cons hf' ht' =>
        rw [hf] at hf'
        injection hf' with he
        subst he
        rw [ih ht ht']

theorem Seg.valid {s : SkipList V} {i : Nat} {st en : NodeRef} {l : List Nat}
    (h : Seg s i st l en) : ∀ nid ∈ l, nid < s.nodes.length := by
  induction h with
  | nil => simp
  | cons hf _ ih =>
    intro x hx
    rcases List.mem_cons.mp hx with rfl | hx'
    · by_contra hlt
      have hnone : s.nodes[x]? = none := by
        apply List.getElem?_eq_none
        omega
      rw [SkipList.fwdOf, hnone] at hf
      simp at hf
    · exact ih x hx'

theorem Seg.nodup {s : SkipList V} {i : Nat} {st : NodeRef} {l : List Nat}
    (h : Seg s i st l none) : l.Nodup := by
  induction l generalizing st with
  | nil => simp
  | cons a t ih =>
    cases h with
    | cons hf ht =>
      refine List.nodup_cons.mpr ⟨?_, ih ht⟩
      intro hmem
      obtain ⟨B, C, rfl⟩ := List.append_of_mem hmem
      obtain ⟨m, h1, h2⟩ := Seg.split ht
      cases h2 with
      | cons hf2 ht2 =>
        rw [hf] at hf2
        injection hf2 with he
        subst he
        have hlen := congrArg List.length (Seg.det ht ht2)
        simp at hlen
        omega

theorem Seg.length_le {s : SkipList V} {i : Nat} {st : NodeRef} {l : List Nat}
    (h : Seg s i st l none) : l.length ≤ s.nodes.length := by
  classical
  have hnd := h.nodup
  have hv := h.valid
  calc l.length = l.toFinset.card := (List.toFinset_card_of_nodup hnd).symm
    _ ≤ (Finset.range s.nodes.length).card := by
        apply Finset.card_le_card
        intro x hx
        simp only [List.mem_toFinset] at hx
        simpa [Finset.mem_range] using hv x hx
    _ = s.nodes.length := Finset.card_range _

theorem Seg.frame {s s' : SkipList V} {i : Nat} {st en : NodeRef} {l : List Nat}
    (hagree : ∀ nid ∈ l, s'.fwdOf nid i = s.fwdOf nid i)
    (h : Seg s i st l en) : Seg s' i st l en := by
  induction h with
  | nil => exact Seg.nil _
  | cons hf ht ih =>
    refine Seg.cons ?_ (ih (fun x hx => hagree x (List.mem_cons_of_mem _ hx)))
    rw [hagree _ (List.mem_cons_self _ _)]
    exact hf

theorem fwdAt_node {s : SkipList V} {nid i : Nat} {r : NodeRef}
    (h : s.fwdOf nid i = some r) : s.fwdAt (.node nid) i = r := by
  rw [SkipList.fwdOf] at h
  rw [SkipList.fwdAt]
  cases hg : s.nodes[nid]? with
  | none => rw [hg] at h; simp at h
  | some nd =>
    rw [hg] at h
    simp at h
    simpa using h

theorem fwdOf_of_lt {s : SkipList V} {nid : Nat} (i : Nat)
    (h : nid < s.nodes.length) :
    s.fwdOf nid i = some ((s.nodes.get ⟨nid, h⟩).forward.getD i none) := by
  rw [SkipList.fwdOf, List.getElem?_eq_getElem h]
  rfl

/-! ### Correctness of one traversal pass -/

theorem advance_eq_stopAt {s : SkipList V} {K : Int} {i : Nat} :
    ∀ {l : List Nat} {p : Pos} {fuel : Nat} {st : NodeRef}, s.fwdAt p i = st →
      Seg s i st l none → l.length < fuel →
      s.advance K i fuel p = stopAt s K p l := by
  intro l
  induction l with
  | nil =>
    intro p fuel st heq hseg hfuel
    cases hseg
    cases fuel with
    | zero => omega
    | succ f => simp [SkipList.advance, heq, stopAt]
  | cons n t ih =>
    intro p fuel st heq hseg hfuel
    cases hseg with
    | cons hfw hrest =>
      rename_i nxt
      cases fuel with
      | zero => omega
      | succ f =>
        have hget : ∃ nd, s.nodes[n]? = some nd ∧ nd.forward.getD i none = nxt := by
          rw [SkipList.fwdOf] at hfw
          cases hg : s.nodes[n]? with
          | none => rw [hg] at hfw; simp at hfw
          | some nd =>
            rw [hg] at hfw
            refine ⟨nd, rfl, ?_⟩
            simpa using hfw
        obtain ⟨nd, hg, hnxt⟩ := hget
        have hkey : s.keyD n = nd.key := by rw [SkipList.keyD, hg]
        by_cases hlt : nd.key < K
        · rw [stopAt, if_pos (by rw [hkey]; exact hlt)]
          have hadv : s.advance K i (f + 1) p = s.advance K i f (Pos.node n) := by
            simp only [SkipList.advance, heq, hg]
            rw [if_pos hlt]
          rw [hadv]
          refine ih ?_ hrest (by simpa using Nat.lt_of_succ_lt_succ hfuel)
          refine fwdAt_node ?_
          rw [SkipList.fwdOf, hg, Option.map_some', hnxt]
        · have hadv : s.advance K i (f + 1) p = p := by
            simp only [SkipList.advance, heq, hg]
            rw [if_neg hlt]
          rw [hadv, stopAt, if_neg (by rw [hkey]; exact hlt)]

theorem stopAt_spec {s : SkipList V} {K : Int} {i : Nat} :
    ∀ {l : List Nat} {p : Pos} {st : NodeRef}, s.fwdAt p i = st →
      Seg s i st l none →
      Seg s i (s.fwdAt p i) (l.takeWhile (ltK s K)) (s.fwdAt (stopAt s K p l) i) ∧
      Seg s i (s.fwdAt (stopAt s K p l) i) (l.dropWhile (ltK s K)) none ∧
      (stopAt s K p l = p ∧ l.takeWhile (ltK s K) = [] ∨
        ∃ m, (l.takeWhile (ltK s K)).getLast? = some m ∧ stopAt s K p l = Pos.node m) := by
  intro l
  induction l with
  | nil =>
    intro p st heq hseg
    cases hseg
    exact ⟨by rw [stopAt]; exact Seg.nil _, by rw [stopAt, heq]; exact Seg.nil _,
      Or.inl ⟨rfl, rfl⟩⟩
  | cons n t ih =>
    intro p st heq hseg
    cases hseg with
    | cons hfw hrest =>
      by_cases hlt : s.keyD n < K
      · have htk : (n :: t).takeWhile (ltK s K) = n :: t.takeWhile (ltK s K) := by
          simp [List.takeWhile_cons, ltK, hlt]
        have hdr : (n :: t).dropWhile (ltK s K) = t.dropWhile (ltK s K) := by
          simp [List.dropWhile_cons, ltK, hlt]
        have hstep : s.fwdAt (Pos.node n) i = _ := fwdAt_node hfw
        have hst : stopAt s K p (n :: t) = stopAt s K (Pos.node n) t := by
          rw [stopAt, if_pos hlt]
        obtain ⟨ih1, ih2, ih3⟩ := ih hstep hrest
        refine ⟨?_, ?_, ?_⟩
        · rw [htk, heq, hst]
          refine Seg.cons hfw ?_
          rw [hstep] at ih1
          exact ih1
        · rw [hdr, hst]; exact ih2
        · rw [htk, hst]
          rcases ih3 with ⟨hq, htw⟩ | ⟨m, hm, hq⟩
          · exact Or.inr ⟨n, by rw [htw]; rfl, hq⟩
          · refine Or.inr ⟨m, ?_, hq⟩
            have hne : t.takeWhile (ltK s K) ≠ [] := by
              intro hz; rw [hz] at hm; simp at hm
            obtain ⟨b, l', hbl⟩ := List.exists_cons_of_ne_nil hne
            rw [hbl]
            rw [hbl] at hm
            simpa using hm
      · have htk : (n :: t).takeWhile (ltK s K) = [] := by
          simp [List.takeWhile_cons, ltK, hlt]
        have hdr : (n :: t).dropWhile (ltK s K) = n :: t := by
          simp [List.dropWhile_cons, ltK, hlt]
        have hst : stopAt s K p (n :: t) = p := by
          rw [stopAt, if_neg hlt]
        exact ⟨by rw [htk, hst]; exact Seg.nil _,
          by rw [hdr, hst, heq]; exact Seg.cons hfw hrest,
          Or.inl ⟨hst, htk⟩⟩

/-! ### List helpers -/

theorem takeWhile_append_all {α : Type _} {p : α → Bool} :
    ∀ {l1 l2 : List α}, (∀ x ∈ l1, p x = true) →
      (l1 ++ l2).takeWhile p = l1 ++ l2.takeWhile p := by
  intro l1
  induction l1 with
  | nil => simp
  | cons a t ih =>
    intro l2 h
    have ha : p a = true := h a (List.mem_cons_self a t)
    simp [List.takeWhile_cons, ha, ih (fun x hx => h x (List.mem_cons_of_mem _ hx))]

theorem dropWhile_append_all {α : Type _} {p : α → Bool} :
    ∀ {l1 l2 : List α}, (∀ x ∈ l1, p x = true) →
      (l1 ++ l2).dropWhile p = l2.dropWhile p := by
  intro l1
  induction l1 with
  | nil => simp
  | cons a t ih =>
    intro l2 h
    have ha : p a = true := h a (List.mem_cons_self a t)
    simp [List.dropWhile_cons, ha, ih (fun x hx => h x (List.mem_cons_of_mem _ hx))]

theorem getLast?_mem {α : Type _} {l : List α} {a : α} (h : l.getLast? = some a) :
    a ∈ l := by
  obtain ⟨hne, rfl⟩ := List.mem_getLast?_eq_getLast (by rw [Option.mem_def]; exact h)
  exact List.getLast_mem hne

theorem getLast?_append_right {α : Type _} {l1 l2 : List α} (h : l2 ≠ []) :
    (l1 ++ l2).getLast? = l2.getLast? := by
  rw [List.getLast?_append]
  cases hl : l2.getLast? with
  | none => exact absurd (List.getLast?_eq_none_iff.mp hl) h
  | some a => rfl

theorem getD_append_lt {α : Type _} {l l' : List α} {j : Nat} {d : α} (h : j < l.length) :
    (l ++ l').getD j d = l.getD j d := by
  rw [List.getD_eq_getElem?_getD, List.getD_eq_getElem?_getD, List.getElem?_append,
    if_pos h]

theorem getD_append_len {α : Type _} {l l' : List α} {d : α} :
    (l ++ l').getD l.length d = l'.getD 0 d := by
  rw [List.getD_eq_getElem?_getD, List.getD_eq_getElem?_getD, List.getElem?_append]
  simp

theorem getD_append_eq_len {α : Type _} {l l' : List α} {j : Nat} {d : α}
    (h : l.length = j) : (l ++ l').getD j d = l'.getD 0 d := by
  subst h
  exact getD_append_len

/-! ### The predecessor position computed by one pass -/

theorem chain_from_pos {s : SkipList V} {i : Nat} {L : List Nat}
    (hL : Seg s i (s.hfwd i) L none) {p : Pos}
    (hp : p = Pos.header ∨ ∃ m, p = Pos.node m ∧ m ∈ L) :
    ∃ lp, Seg s i (s.fwdAt p i) lp none ∧ lp.length ≤ L.length := by
  rcases hp with rfl | ⟨m, rfl, hmem⟩
  · exact ⟨L, hL, le_refl _⟩
  · obtain ⟨A, B, rfl⟩ := List.append_of_mem hmem
    obtain ⟨m1, hA, hmB⟩ := Seg.split hL
    cases hmB with
    | cons hfwm hsegB =>
      refine ⟨B, ?_, by simp only [List.length_append, List.length_cons]; omega⟩
      rw [fwdAt_node hfwm]
      exact hsegB

theorem stopAt_predAt {s : SkipList V} {K : Int} {i : Nat} {L : List Nat}
    (hL : Seg s i (s.hfwd i) L none)
    (hsorted : L.Pairwise (fun a b => s.keyD a < s.keyD b)) {p : Pos}
    (hp : p = Pos.header ∨ ∃ m, p = Pos.node m ∧ m ∈ L ∧ s.keyD m < K)
    {lp : List Nat} (hlp : Seg s i (s.fwdAt p i) lp none) :
    PredAt s K i (stopAt s K p lp) L := by
  rcases hp with rfl | ⟨m, rfl, hmem, hkeym⟩
  · have hlp' : Seg s i (s.hfwd i) lp none := hlp
    obtain rfl := Seg.det hlp' hL
    obtain ⟨h1, h2, h3⟩ := stopAt_spec (p := Pos.header) rfl hlp
    exact ⟨h1, h2, h3⟩
  · obtain ⟨A, B, rfl⟩ := List.append_of_mem hmem
    obtain ⟨m1, hA, hmB⟩ := Seg.split hL
    cases hmB with
    | cons hfwm hsegB =>
      rename_i nxt
      have hfwp : s.fwdAt (Pos.node m) i = nxt := fwdAt_node hfwm
      have hsegB' : Seg s i (s.fwdAt (Pos.node m) i) B none := by
        rw [hfwp]; exact hsegB
      have hBlp : B = lp := Seg.det hsegB' hlp
      subst hBlp
      obtain ⟨h1, h2, h3⟩ := stopAt_spec (p := Pos.node m) rfl hsegB'
      have hcross := (List.pairwise_append.mp hsorted).2.2
      have hAlt : ∀ x ∈ A ++ [m], ltK s K x = true := by
        intro x hx
        rcases List.mem_append.mp hx with hxA | hxm
        · have hxk : s.keyD x < s.keyD m :=
            hcross x hxA m (List.mem_cons_self _ _)
          simp only [ltK, decide_eq_true_eq]
          omega
        · simp only [List.mem_singleton] at hxm
          subst hxm
          simp only [ltK, decide_eq_true_eq]
          exact hkeym
      have hassoc : A ++ m :: B = (A ++ [m]) ++ B := by simp
      have htkL : (A ++ m :: B).takeWhile (ltK s K) =
          (A ++ [m]) ++ B.takeWhile (ltK s K) := by
        rw [hassoc, takeWhile_append_all hAlt]
      have hdrL : (A ++ m :: B).dropWhile (ltK s K) = B.dropWhile (ltK s K) := by
        rw [hassoc, dropWhile_append_all hAlt]
      refine ⟨?_, ?_, ?_⟩
      · rw [htkL]
        have hm' : Seg s i (some m) (m :: B.takeWhile (ltK s K))
            (s.fwdAt (stopAt s K (Pos.node m) B) i) := by
          refine Seg.cons hfwm ?_
          rw [← hfwp]
          exact h1
        have hall := Seg.append hA hm'
        simpa using hall
      · rw [hdrL]; exact h2
      · rw [htkL]
        rcases h3 with ⟨hq, htw⟩ | ⟨m', hm', hq⟩
        · refine Or.inr ⟨m, ?_, hq⟩
          rw [htw]
          simp
        · refine Or.inr ⟨m', ?_, hq⟩
          rw [getLast?_append_right (by intro hz; rw [hz] at hm'; simp at hm')]
          exact hm'

/-! ### The descent and its update table -/

theorem Seg.eq_of_nil {s : SkipList V} {i : Nat} {st en : NodeRef}
    (h : Seg s i st [] en) : st = en := by
  cases h; rfl

theorem Seg.start_some {s : SkipList V} {i : Nat} {st en : NodeRef} {nid : Nat}
    {l : List Nat} (h : Seg s i st (nid :: l) en) : st = some nid := by
  cases h; rfl

theorem Seg.cons_inv {s : SkipList V} {i : Nat} {st en : NodeRef} {nid : Nat}
    {l : List Nat} (h : Seg s i st (nid :: l) en) :
    ∃ nxt, s.fwdOf nid i = some nxt ∧ Seg s i nxt l en := by
  cases h with
  | cons hf ht => exact ⟨_, hf, ht⟩

theorem PredAt.fwd_eq {s : SkipList V} {K : Int} {j : Nat} {q : Pos} {L : List Nat}
    (h : PredAt s K j q L) : s.fwdAt q j = (L.dropWhile (ltK s K)).head? := by
  have hp := h.split_post
  cases hd : L.dropWhile (ltK s K) with
  | nil => rw [hd] at hp; exact hp.eq_of_nil
  | cons a t => rw [hd] at hp; exact hp.start_some

theorem mem_takeWhile_key_lt {s : SkipList V} {K : Int} {L : List Nat} {m : Nat}
    (h : m ∈ L.takeWhile (ltK s K)) : s.keyD m < K := by
  have := List.mem_takeWhile_imp h
  simpa [ltK] using this

theorem PredAt.goodStart_self {s : SkipList V} {K : Int} {j : Nat} {q : Pos}
    {L : List Nat} (h : PredAt s K j q L) (hL : Seg s j (s.hfwd j) L none) :
    GoodStart s K j q := by
  rcases h.pos with ⟨hq, _⟩ | ⟨m, hm, hq⟩
  · exact Or.inl hq
  · refine Or.inr ⟨m, hq, mem_takeWhile_key_lt (getLast?_mem hm), ?_⟩
    intro L' hL'
    obtain rfl := Seg.det hL' hL
    exact (List.takeWhile_sublist _).mem (getLast?_mem hm)

theorem PredAt.goodStart_below {s : SkipList V} {K : Int} {j : Nat} {q : Pos}
    {L : List Nat} (hw : WF s) (h : PredAt s K (j + 1) q L)
    (hL : Seg s (j + 1) (s.hfwd (j + 1)) L none) : GoodStart s K j q := by
  rcases h.pos with ⟨hq, _⟩ | ⟨m, hm, hq⟩
  · exact Or.inl hq
  · refine Or.inr ⟨m, hq, mem_takeWhile_key_lt (getLast?_mem hm), ?_⟩
    intro L' hL'
    exact hw.subset j L' L hL hL' m ((List.takeWhile_sublist _).mem (getLast?_mem hm))

theorem goodStart_chain_mem {s : SkipList V} {K : Int} {i : Nat} {p : Pos}
    {L : List Nat} (hgs : GoodStart s K i p) (hL : Seg s i (s.hfwd i) L none) :
    p = Pos.header ∨ ∃ m, p = Pos.node m ∧ m ∈ L := by
  rcases hgs with rfl | ⟨m, rfl, _, hmem⟩
  · exact Or.inl rfl
  · exact Or.inr ⟨m, rfl, hmem L hL⟩

theorem goodStart_pred_hyp {s : SkipList V} {K : Int} {i : Nat} {p : Pos}
    {L : List Nat} (hgs : GoodStart s K i p) (hL : Seg s i (s.hfwd i) L none) :
    p = Pos.header ∨ ∃ m, p = Pos.node m ∧ m ∈ L ∧ s.keyD m < K := by
  rcases hgs with rfl | ⟨m, rfl, hk, hmem⟩
  · exact Or.inl rfl
  · exact Or.inr ⟨m, rfl, hmem L hL, hk⟩

theorem descend_zero {s : SkipList V} {K : Int} {p : Pos} :
    s.descend K 0 p = (s.advance K 0 (s.nodes.length + 1) p,
      [s.advance K 0 (s.nodes.length + 1) p]) := rfl

theorem descend_succ {s : SkipList V} {K : Int} {n : Nat} {p : Pos} :
    s.descend K (n + 1) p =
      ((s.descend K n (s.advance K (n + 1) (s.nodes.length + 1) p)).1,
        (s.descend K n (s.advance K (n + 1) (s.nodes.length + 1) p)).2 ++
          [s.advance K (n + 1) (s.nodes.length + 1) p]) := rfl

theorem descendPos_eq_descend {s : SkipList V} {K : Int} :
    ∀ (i : Nat) (p : Pos), s.descendPos K i p = (s.descend K i p).1 := by
  intro i
  induction i with
  | zero => intro p; rfl
  | succ n ih =>
    intro p
    rw [SkipList.descendPos, descend_succ]
    exact ih _

/-- One pass of the descent computes a `PredAt` position for its level. -/
theorem advance_predAt {s : SkipList V} (hw : WF s) {K : Int} {i : Nat} {p : Pos}
    (hgs : GoodStart s K i p) :
    ∀ L, Seg s i (s.hfwd i) L none →
      PredAt s K i (s.advance K i (s.nodes.length + 1) p) L := by
  obtain ⟨Li, hLi⟩ := hw.chains i
  obtain ⟨lp, hlp, hlen⟩ := chain_from_pos hLi (goodStart_chain_mem hgs hLi)
  have hfuel : lp.length < s.nodes.length + 1 := by
    have := Seg.length_le hLi
    omega
  have hadv : s.advance K i (s.nodes.length + 1) p = stopAt s K p lp :=
    advance_eq_stopAt rfl hlp hfuel
  intro L hL
  obtain rfl := Seg.det hL hLi
  rw [hadv]
  exact stopAt_predAt hL (hw.sorted i _ hL) (goodStart_pred_hyp hgs hL) hlp

/-- The full descent: the update table has one entry per level `0..i`, and
the entry at level `j` is the level-`j` predecessor position; the returned
position is the level-0 entry. -/
theorem descend_spec {s : SkipList V} (hw : WF s) (K : Int) :
    ∀ (i : Nat) (p : Pos), GoodStart s K i p →
      (s.descend K i p).2.length = i + 1 ∧
      (∀ j, j ≤ i → ∀ L, Seg s j (s.hfwd j) L none →
        PredAt s K j ((s.descend K i p).2.getD j Pos.header) L) ∧
      (s.descend K i p).1 = (s.descend K i p).2.getD 0 Pos.header := by
  intro i
  induction i with
  | zero =>
    intro p hgs
    refine ⟨by simp [descend_zero], ?_, by simp [descend_zero]⟩
    intro j hj L hL
    obtain rfl : j = 0 := Nat.le_zero.mp hj
    rw [descend_zero]
    simpa using advance_predAt hw hgs L hL
  | succ n ih =>
    intro p hgs
    obtain ⟨L1, hL1⟩ := hw.chains (n + 1)
    have hq : PredAt s K (n + 1) (s.advance K (n + 1) (s.nodes.length + 1) p) L1 :=
      advance_predAt hw hgs L1 hL1
    have hgq : GoodStart s K n (s.advance K (n + 1) (s.nodes.length + 1) p) :=
      hq.goodStart_below hw hL1
    obtain ⟨ihlen, ihpred, ihfst⟩ := ih _ hgq
    refine ⟨?_, ?_, ?_⟩
    · rw [descend_succ]
      simp [ihlen]
    · intro j hj L hL
      rw [descend_succ]
      rcases Nat.lt_or_ge j (n + 1) with hlt | hge
      · rw [getD_append_lt (by rw [ihlen]; omega)]
        exact ihpred j (by omega) L hL
      · obtain rfl : j = n + 1 := by omega
        rw [getD_append_eq_len ihlen]
        obtain rfl := Seg.det hL hL1
        simpa using hq
    · rw [descend_succ]
      rw [getD_append_lt (by rw [ihlen]; omega)]
      exact ihfst

/-! ### `to_list` and `size` as functions of the level-0 chain -/

theorem Seg.get_some {s : SkipList V} {i : Nat} {st en : NodeRef} {l : List Nat}
    (h : Seg s i st l en) : ∀ nid ∈ l, ∃ nd, s.nodes[nid]? = some nd := by
  induction h with
  | nil => simp
  | cons hf _ ih =>
    intro x hx
    rcases List.mem_cons.mp hx with rfl | hx'
    · rw [SkipList.fwdOf] at hf
      cases hg : s.nodes[x]? with
      | none => rw [hg] at hf; simp at hf
      | some nd => exact ⟨nd, rfl⟩
    · exact ih x hx'

theorem entriesOf_nil {s : SkipList V} : entriesOf s [] = [] := rfl

theorem entriesOf_cons {s : SkipList V} {n : Nat} {t : List Nat} {nd : Node V}
    (hg : s.nodes[n]? = some nd) :
    entriesOf s (n :: t) = (nd.key, nd.value) :: entriesOf s t := by
  rw [entriesOf, List.flatMap_cons, hg]
  rfl

theorem entriesOf_append {s : SkipList V} {l1 l2 : List Nat} :
    entriesOf s (l1 ++ l2) = entriesOf s l1 ++ entriesOf s l2 := by
  rw [entriesOf, entriesOf, entriesOf, List.flatMap_append]

theorem mem_entriesOf {s : SkipList V} {l : List Nat} {kv : Int × V}
    (h : kv ∈ entriesOf s l) :
    ∃ nid ∈ l, ∃ nd, s.nodes[nid]? = some nd ∧ kv = (nd.key, nd.value) := by
  rw [entriesOf, List.mem_flatMap] at h
  obtain ⟨nid, hmem, hkv⟩ := h
  refine ⟨nid, hmem, ?_⟩
  cases hg : s.nodes[nid]? with
  | none => rw [hg] at hkv; simp at hkv
  | some nd =>
    rw [hg] at hkv
    simp at hkv
    exact ⟨nd, rfl, by rw [hkv]⟩

theorem key_of_mem_entriesOf {s : SkipList V} {l : List Nat} {kv : Int × V}
    (h : kv ∈ entriesOf s l) : ∃ nid ∈ l, kv.1 = s.keyD nid := by
  obtain ⟨nid, hmem, nd, hg, rfl⟩ := mem_entriesOf h
  exact ⟨nid, hmem, by rw [SkipList.keyD, hg]⟩

theorem entriesOf_length {s : SkipList V} {l : List Nat}
    (h : ∀ nid ∈ l, ∃ nd, s.nodes[nid]? = some nd) :
    (entriesOf s l).length = l.length := by
  induction l with
  | nil => rfl
  | cons n t ih =>
    obtain ⟨nd, hg⟩ := h n (List.mem_cons_self _ _)
    rw [entriesOf_cons hg, List.length_cons, List.length_cons,
      ih (fun x hx => h x (List.mem_cons_of_mem _ hx))]

theorem walk_eq_entriesOf {s : SkipList V} :
    ∀ {l : List Nat} {st : NodeRef} {fuel : Nat}, Seg s 0 st l none →
      l.length < fuel → s.walk fuel st = entriesOf s l := by
  intro l
  induction l with
  | nil =>
    intro st fuel h hf
    cases h
    cases fuel with
    | zero => omega
    | succ f => rfl
  | cons n t ih =>
    intro st fuel h hf
    cases h with
    | cons hfw hrest =>
      rename_i nxt
      cases fuel with
      | zero => omega
      | succ f =>
        rw [SkipList.fwdOf] at hfw
        cases hg : s.nodes[n]? with
        | none => rw [hg] at hfw; simp at hfw
        | some nd =>
          rw [hg] at hfw
          rw [Option.map_some'] at hfw
          injection hfw with hfw
          have hwalk : s.walk (f + 1) (some n) =
              (nd.key, nd.value) :: s.walk f (nd.forward.getD 0 none) := by
            rw [SkipList.walk, hg]
          rw [hwalk, entriesOf_cons hg, hfw,
            ih hrest (by simpa using Nat.lt_of_succ_lt_succ hf)]

theorem to_list_eq_entriesOf {s : SkipList V} {L : List Nat}
    (hL : Seg s 0 (s.hfwd 0) L none) : s.to_list = entriesOf s L := by
  rw [SkipList.to_list]
  exact walk_eq_entriesOf hL (Nat.lt_succ_of_le (Seg.length_le hL))

theorem countWalk_eq_length {s : SkipList V} :
    ∀ (fuel : Nat) (st : NodeRef), s.countWalk fuel st = (s.walk fuel st).length := by
  intro fuel
  induction fuel with
  | zero => intro st; rfl
  | succ f ih =>
    intro st
    cases st with
    | none => rfl
    | some nid =>
      rw [SkipList.countWalk, SkipList.walk]
      cases hg : s.nodes[nid]? with
      | none => rfl
      | some nd => simp [ih]

theorem size_eq_to_list_length (s : SkipList V) : s.size = s.to_list.length := by
  rw [SkipList.size, SkipList.to_list, countWalk_eq_length]

/-! ### `search` refines lookup in the ordered association list -/

theorem absSearch_eq_none {es : List (Int × V)} {K : Int}
    (h : ∀ kv ∈ es, kv.1 ≠ K) : absSearch K es = none := by
  induction es with
  | nil => rfl
  | cons a t ih =>
    rw [absSearch]
    rw [if_neg (h a (List.mem_cons_self _ _))]
    exact ih (fun kv hkv => h kv (List.mem_cons_of_mem _ hkv))

theorem absSearch_append_of_ne {es1 es2 : List (Int × V)} {K : Int}
    (h : ∀ kv ∈ es1, kv.1 ≠ K) :
    absSearch K (es1 ++ es2) = absSearch K es2 := by
  induction es1 with
  | nil => rfl
  | cons a t ih =>
    rw [List.cons_append, absSearch, if_neg (h a (List.mem_cons_self _ _))]
    exact ih (fun kv hkv => h kv (List.mem_cons_of_mem _ hkv))

theorem dropWhile_head_not {α : Type _} {p : α → Bool} :
    ∀ {l : List α} {a : α} {t : List α}, l.dropWhile p = a :: t → p a = false := by
  intro l
  induction l with
  | nil => intro a t h; simp at h
  | cons b l' ih =>
    intro a t h
    rw [List.dropWhile_cons] at h
    by_cases hb : p b = true
    · rw [if_pos hb] at h
      exact ih h
    · rw [if_neg hb] at h
      injection h with h1 _
      subst h1
      simpa using hb

theorem dropWhile_key_ge {s : SkipList V} {K : Int} {L : List Nat}
    (hsorted : L.Pairwise (fun a b => s.keyD a < s.keyD b)) :
    ∀ x ∈ L.dropWhile (ltK s K), K ≤ s.keyD x := by
  intro x hx
  cases hd : L.dropWhile (ltK s K) with
  | nil => rw [hd] at hx; simp at hx
  | cons a t =>
    have hha : ltK s K a = false := dropWhile_head_not hd
    have haK : K ≤ s.keyD a := by
      simp only [ltK, decide_eq_false_iff_not] at hha
      omega
    rw [hd] at hx
    rcases List.mem_cons.mp hx with rfl | hx'
    · exact haK
    · -- x is after a in the sorted chain
      have hsub : (a :: t).Sublist L := hd ▸ List.dropWhile_sublist _
      have hp : (a :: t).Pairwise (fun a b => s.keyD a < s.keyD b) :=
        hsorted.sublist hsub
      have : s.keyD a < s.keyD x := (List.pairwise_cons.mp hp).1 x hx'
      omega

/-- The level-0 successor of the descent position is the first chain node
whose key is not below `K`; `search` then compares its key with `K`. -/
theorem search_eq_absSearch {s : SkipList V} (hw : WF s) (K : Int) :
    s.search K = absSearch K s.to_list := by
  obtain ⟨L0, hL0⟩ := hw.chains 0
  have hto := to_list_eq_entriesOf hL0
  obtain ⟨hlen, hpred, hfst⟩ := descend_spec hw K s.level Pos.header (Or.inl rfl)
  have hq : PredAt s K 0 ((s.descend K s.level Pos.header).2.getD 0 Pos.header) L0 :=
    hpred 0 (Nat.zero_le _) L0 hL0
  have hsearch : s.search K =
      match s.fwdAt ((s.descend K s.level Pos.header).2.getD 0 Pos.header) 0 with
      | none => none
      | some nid =>
        match s.nodes[nid]? with
        | none => none
        | some nd => if nd.key = K then some nd.value else none := by
    rw [SkipList.search, descendPos_eq_descend, hfst]
  have hsplit : L0.takeWhile (ltK s K) ++ L0.dropWhile (ltK s K) = L0 :=
    List.takeWhile_append_dropWhile _ _
  have htwlt : ∀ kv ∈ entriesOf s (L0.takeWhile (ltK s K)), kv.1 ≠ K := by
    intro kv hkv
    obtain ⟨nid, hmem, hkey⟩ := key_of_mem_entriesOf hkv
    have := mem_takeWhile_key_lt (s := s) (K := K) hmem
    omega
  cases hd : L0.dropWhile (ltK s K) with
  | nil =>
    have hLtw : L0.takeWhile (ltK s K) = L0 := by
      rw [hd, List.append_nil] at hsplit
      exact hsplit
    have hval : s.search K = none := by
      rw [hsearch, hq.fwd_eq, hd]
      rfl
    rw [hval, hto]
    exact (absSearch_eq_none (fun kv hkv => htwlt kv (by rw [hLtw]; exact hkv))).symm
  | cons a t =>
    have hsegd := hq.split_post
    rw [hd] at hsegd
    obtain ⟨nxt, hfw, hrest⟩ := Seg.cons_inv hsegd
    rw [SkipList.fwdOf] at hfw
    cases hg : s.nodes[a]? with
    | none => rw [hg] at hfw; simp at hfw
    | some nd =>
      have hval : s.search K = if nd.key = K then some nd.value else none := by
        rw [hsearch, hq.fwd_eq, hd]
        simp only [List.head?_cons, hg]
      rw [hval, hto, ← hsplit, hd, entriesOf_append,
        absSearch_append_of_ne htwlt, entriesOf_cons hg, absSearch]
      by_cases hKa : nd.key = K
      · rw [if_pos hKa, if_pos hKa]
      · rw [if_neg hKa, if_neg hKa]
        refine (absSearch_eq_none ?_).symm
        intro kv hkv
        obtain ⟨nid, hmem, hkeq⟩ := key_of_mem_entriesOf hkv
        have hsorted := hw.sorted 0 L0 hL0
        have hdropsorted : (a :: t).Pairwise (fun a b => s.keyD a < s.keyD b) :=
          hsorted.sublist (hd ▸ List.dropWhile_sublist _)
        have hax : s.keyD a < s.keyD nid := (List.pairwise_cons.mp hdropsorted).1 nid hmem
        have haK : K ≤ s.keyD a := by
          have := dropWhile_head_not hd
          simp only [ltK, decide_eq_false_iff_not] at this
          have hkey : s.keyD a = nd.key := by rw [SkipList.keyD, hg]
          omega
        rw [hkeq]
        omega

/-! ### Effect lemmas for the pointer-update primitives -/

theorem getElem?_some_lt {α : Type _} {l : List α} {x : Nat} {a : α}
    (h : l[x]? = some a) : x < l.length := by
  by_contra hx
  rw [List.getElem?_eq_none (by omega)] at h
  cases h

theorem getD_set_self {α : Type _} {l : List α} {i : Nat} {a d : α} (h : i < l.length) :
    (l.set i a).getD i d = a := by
  rw [List.getD_eq_getElem?_getD, List.getElem?_set_self', List.getElem?_eq_getElem h]
  rfl

theorem getD_set_ne {α : Type _} {l : List α} {i j : Nat} {a d : α} (h : i ≠ j) :
    (l.set i a).getD j d = l.getD j d := by
  rw [List.getD_eq_getElem?_getD, List.getD_eq_getElem?_getD, List.getElem?_set_ne h]

theorem nodes_setHeaderFwd {s : SkipList V} {i : Nat} {r : NodeRef} :
    (s.setHeaderFwd i r).nodes = s.nodes := rfl

theorem fwdOf_setHeaderFwd {s : SkipList V} {i : Nat} {r : NodeRef} {x j : Nat} :
    (s.setHeaderFwd i r).fwdOf x j = s.fwdOf x j := rfl

theorem keyD_setHeaderFwd {s : SkipList V} {i : Nat} {r : NodeRef} {x : Nat} :
    (s.setHeaderFwd i r).keyD x = s.keyD x := rfl

theorem entriesOf_setHeaderFwd {s : SkipList V} {i : Nat} {r : NodeRef} {l : List Nat} :
    entriesOf (s.setHeaderFwd i r) l = entriesOf s l := rfl

theorem hfwd_setHeaderFwd_self {s : SkipList V} {i : Nat} {r : NodeRef}
    (h : i < s.headerForward.length) : (s.setHeaderFwd i r).hfwd i = r :=
  getD_set_self h

theorem hfwd_setHeaderFwd_ne {s : SkipList V} {i j : Nat} {r : NodeRef} (h : i ≠ j) :
    (s.setHeaderFwd i r).hfwd j = s.hfwd j :=
  getD_set_ne h

theorem headerForward_setNodeFwd {s : SkipList V} {nid i : Nat} {r : NodeRef} :
    (s.setNodeFwd nid i r).headerForward = s.headerForward := by
  rw [SkipList.setNodeFwd]
  cases s.nodes[nid]? <;> rfl

theorem hfwd_setNodeFwd {s : SkipList V} {nid i : Nat} {r : NodeRef} {j : Nat} :
    (s.setNodeFwd nid i r).hfwd j = s.hfwd j := by
  rw [SkipList.hfwd, SkipList.hfwd, headerForward_setNodeFwd]

theorem nodes_length_setNodeFwd {s : SkipList V} {nid i : Nat} {r : NodeRef} :
    (s.setNodeFwd nid i r).nodes.length = s.nodes.length := by
  rw [SkipList.setNodeFwd]
  cases s.nodes[nid]? with
  | none => rfl
  | some nd => simp

theorem getElem?_setNodeFwd_ne {s : SkipList V} {nid i : Nat} {r : NodeRef} {x : Nat}
    (h : x ≠ nid) : (s.setNodeFwd nid i r).nodes[x]? = s.nodes[x]? := by
  rw [SkipList.setNodeFwd]
  cases hg : s.nodes[nid]? with
  | none => rfl
  | some nd => exact List.getElem?_set_ne (fun he => h he.symm)

theorem getElem?_setNodeFwd_self {s : SkipList V} {nid i : Nat} {r : NodeRef}
    {nd : Node V} (hg : s.nodes[nid]? = some nd) :
    (s.setNodeFwd nid i r).nodes[nid]? =
      some { nd with forward := nd.forward.set i r } := by
  rw [SkipList.setNodeFwd, hg]
  have hlt : nid < s.nodes.length := getElem?_some_lt hg
  show (s.nodes.set nid _)[nid]? = _
  rw [List.getElem?_set_self', hg]
  rfl

theorem fwdOf_setNodeFwd_ne_node {s : SkipList V} {nid i : Nat} {r : NodeRef}
    {x j : Nat} (h : x ≠ nid) :
    (s.setNodeFwd nid i r).fwdOf x j = s.fwdOf x j := by
  rw [SkipList.fwdOf, SkipList.fwdOf, getElem?_setNodeFwd_ne h]

theorem fwdOf_setNodeFwd_ne_level {s : SkipList V} {nid i : Nat} {r : NodeRef}
    {x j : Nat} (h : j ≠ i) :
    (s.setNodeFwd nid i r).fwdOf x j = s.fwdOf x j := by
  by_cases hx : x = nid
  · subst hx
    cases hg : s.nodes[x]? with
    | none =>
      rw [SkipList.fwdOf, SkipList.fwdOf, SkipList.setNodeFwd, hg]
      simp [hg]
    | some nd =>
      rw [SkipList.fwdOf, SkipList.fwdOf, getElem?_setNodeFwd_self hg, hg]
      simp only [Option.map_some']
      rw [getD_set_ne (fun he => h he.symm)]
  · exact fwdOf_setNodeFwd_ne_node hx

theorem fwdOf_setNodeFwd_self {s : SkipList V} {nid i : Nat} {r : NodeRef}
    {nd : Node V} (hg : s.nodes[nid]? = some nd) (hi : i < nd.forward.length) :
    (s.setNodeFwd nid i r).fwdOf nid i = some r := by
  rw [SkipList.fwdOf, getElem?_setNodeFwd_self hg]
  simp only [Option.map_some']
  rw [getD_set_self (by simpa using hi)]

theorem keyD_setNodeFwd {s : SkipList V} {nid i : Nat} {r : NodeRef} {x : Nat} :
    (s.setNodeFwd nid i r).keyD x = s.keyD x := by
  by_cases hx : x = nid
  · subst hx
    cases hg : s.nodes[x]? with
    | none =>
      rw [SkipList.keyD, SkipList.keyD, SkipList.setNodeFwd, hg]
      simp [hg]
    | some nd => rw [SkipList.keyD, SkipList.keyD, getElem?_setNodeFwd_self hg, hg]
  · rw [SkipList.keyD, SkipList.keyD, getElem?_setNodeFwd_ne hx]

theorem entriesOf_setNodeFwd {s : SkipList V} {nid i : Nat} {r : NodeRef}
    {l : List Nat} : entriesOf (s.setNodeFwd nid i r) l = entriesOf s l := by
  induction l with
  | nil => rfl
  | cons x t ih =>
    rw [entriesOf, List.flatMap_cons, entriesOf, List.flatMap_cons]
    have hx : (match (s.setNodeFwd nid i r).nodes[x]? with
        | some nd => [(nd.key, nd.value)]
        | none => ([] : List (Int × V))) =
        (match s.nodes[x]? with
        | some nd => [(nd.key, nd.value)]
        | none => []) := by
      by_cases hxn : x = nid
      · subst hxn
        cases hg : s.nodes[x]? with
        | none =>
          rw [SkipList.setNodeFwd, hg]
          simp [hg]
        | some nd => rw [getElem?_setNodeFwd_self hg]
      · rw [getElem?_setNodeFwd_ne hxn]
    rw [hx]
    exact congrArg _ ih

theorem forwardLen_setNodeFwd {s : SkipList V} {nid i : Nat} {r : NodeRef} {x : Nat} :
    ((s.setNodeFwd nid i r).nodes[x]?).map (fun nd => nd.forward.length) =
      (s.nodes[x]?).map (fun nd => nd.forward.length) := by
  by_cases hx : x = nid
  · subst hx
    cases hg : s.nodes[x]? with
    | none =>
      rw [SkipList.setNodeFwd, hg]
      simp [hg]
    | some nd =>
      rw [getElem?_setNodeFwd_self hg]
      simp
  · rw [getElem?_setNodeFwd_ne hx]

theorem setFwd_node {s : SkipList V} {nid i : Nat} {r : NodeRef} :
    s.setFwd (Pos.node nid) i r = s.setNodeFwd nid i r := rfl

theorem setFwd_header {s : SkipList V} {i : Nat} {r : NodeRef} :
    s.setFwd Pos.header i r = s.setHeaderFwd i r := rfl

/-! ### Transporting the invariant across observationally equal states -/

theorem Seg.none_inv {s : SkipList V} {i : Nat} {en : NodeRef} {l : List Nat}
    (h : Seg s i none l en) : l = [] ∧ en = none := by
  cases h
  exact ⟨rfl, rfl⟩

theorem WF.congr {s s' : SkipList V} (hw : WF s)
    (h1 : s'.headerForward.length = s.headerForward.length)
    (h2 : s'.maxLevel = s.maxLevel) (h3 : s'.level = s.level)
    (h4 : ∀ j, s'.hfwd j = s.hfwd j)
    (h5 : ∀ x j, s'.fwdOf x j = s.fwdOf x j)
    (h6 : ∀ x, s'.keyD x = s.keyD x)
    (h7 : ∀ (x : Nat), (s'.nodes[x]?).map (fun nd => nd.forward.length) =
      (s.nodes[x]?).map (fun nd => nd.forward.length)) : WF s' := by
  have hseg : ∀ i st l en, Seg s i st l en → Seg s' i st l en :=
    fun i st l en h => Seg.frame (fun nid _ => h5 nid i) h
  have hseg' : ∀ i st l en, Seg s' i st l en → Seg s i st l en :=
    fun i st l en h => Seg.frame (fun nid _ => (h5 nid i).symm) h
  refine ⟨?_, ?_, ?_, ?_, ?_, ?_, ?_, ?_⟩
  · rw [h1, h2]; exact hw.hlen
  · rw [h3, h2]; exact hw.hlev
  · intro i
    obtain ⟨l, hl⟩ := hw.chains i
    exact ⟨l, by rw [h4]; exact hseg _ _ _ _ hl⟩
  · intro i l hl
    have hl' : Seg s i (s.hfwd i) l none := by
      rw [← h4]; exact hseg' _ _ _ _ hl
    have := hw.sorted i l hl'
    exact this.imp (by intro a b hab; rw [h6, h6]; exact hab)
  · intro i l l' hl' hl
    refine hw.subset i l l' ?_ ?_
    · rw [← h4]; exact hseg' _ _ _ _ hl'
    · rw [← h4]; exact hseg' _ _ _ _ hl
  · intro i hi
    rw [h4]
    exact hw.above i (by rw [h3] at hi; exact hi)
  · rcases hw.top with h | h
    · exact Or.inl (by rw [h3, h])
    · exact Or.inr (by rw [h3, h4]; exact h)
  · intro i l hl nid hmem nd hget
    have hl' : Seg s i (s.hfwd i) l none := by
      rw [← h4]; exact hseg' _ _ _ _ hl
    have hmap := h7 nid
    rw [hget, Option.map_some'] at hmap
    cases hg : s.nodes[nid]? with
    | none => rw [hg] at hmap; simp at hmap
    | some nd0 =>
      rw [hg, Option.map_some'] at hmap
      injection hmap with hmap
      rw [hmap]
      exact hw.chain_len i l hl' nid hmem nd0 hg

/-! ### The empty skip list -/

theorem hfwd_empty (maxLevel : Nat) (p : Rat) (i : Nat) :
    (SkipList.empty V maxLevel p).hfwd i = none := by
  rw [SkipList.hfwd, SkipList.empty, List.getD_eq_getElem?_getD, List.getElem?_replicate]
  split <;> rfl

theorem WF_empty (maxLevel : Nat) (p : Rat) : WF (SkipList.empty V maxLevel p) := by
  refine ⟨?_, ?_, ?_, ?_, ?_, ?_, ?_, ?_⟩
  · simp [SkipList.empty]
  · exact Nat.zero_le _
  · intro i
    exact ⟨[], by rw [hfwd_empty]; exact Seg.nil none⟩
  · intro i l hl
    rw [hfwd_empty] at hl
    obtain ⟨rfl, -⟩ := hl.none_inv
    simp
  · intro i l l' hl' hl
    rw [hfwd_empty] at hl'
    obtain ⟨rfl, -⟩ := hl'.none_inv
    simp
  · intro i _
    exact hfwd_empty maxLevel p i
  · exact Or.inl rfl
  · intro i l hl
    rw [hfwd_empty] at hl
    obtain ⟨rfl, -⟩ := hl.none_inv
    simp

theorem to_list_empty (maxLevel : Nat) (p : Rat) :
    (SkipList.empty V maxLevel p).to_list = [] := by
  rw [SkipList.to_list, hfwd_empty]
  rfl

/-! ### Effects of appending a fresh node to the arena -/

theorem getElem?_append_lt {α : Type _} {l l' : List α} {x : Nat} (h : x < l.length) :
    (l ++ l')[x]? = l[x]? := by
  rw [List.getElem?_append, if_pos h]

theorem fwdAt_node_eq {s : SkipList V} {nid i : Nat} :
    s.fwdAt (Pos.node nid) i = (s.fwdOf nid i).getD none := by
  rw [SkipList.fwdAt, SkipList.fwdOf]
  cases s.nodes[nid]? <;> rfl

theorem fwdAt_congr {s s' : SkipList V} {p : Pos} {i : Nat}
    (hh : s'.hfwd i = s.hfwd i) (hf : ∀ x, s'.fwdOf x i = s.fwdOf x i) :
    s'.fwdAt p i = s.fwdAt p i := by
  cases p with
  | header => exact hh
  | node nid => rw [fwdAt_node_eq, fwdAt_node_eq, hf]

/-! ### The splicing loop of `insert` -/

theorem getLast?_decomp {α : Type _} :
    ∀ {l : List α} {a : α}, l.getLast? = some a → ∃ l', l = l' ++ [a] := by
  intro l
  induction l with
  | nil => intro a h; simp at h
  | cons b t ih =>
    intro a h
    cases t with
    | nil =>
      simp at h
      subst h
      exact ⟨[], rfl⟩
    | cons c t' =>
      rw [List.getLast?_cons_cons] at h
      obtain ⟨l', hl'⟩ := ih h
      exact ⟨b :: l', by rw [List.cons_append, ← hl']⟩

theorem getD_replicate_self {α : Type _} {n j : Nat} {a : α} :
    (List.replicate n a).getD j a = a := by
  rw [List.getD_eq_getElem?_getD, List.getElem?_replicate]
  split <;> rfl

theorem splice_succ {upd2 : List Pos} {newId c : Nat} {s2 : SkipList V} :
    SkipList.splice upd2 newId (c + 1) s2 =
      ((SkipList.splice upd2 newId c s2).setNodeFwd newId c
          ((SkipList.splice upd2 newId c s2).fwdAt (upd2.getD c Pos.header) c)).setFwd
        (upd2.getD c Pos.header) c (some newId) := rfl

theorem splice_invariant {base s2 : SkipList V} {K : Int} {v : V}
    {newId newLevel : Nat} {upd2 : List Pos} {Ls : Nat → List Nat}
    (hbase : WF base)
    (hLs : ∀ j, Seg base j (base.hfwd j) (Ls j) none)
    (hpred : ∀ j, j ≤ newLevel → PredAt base K j (upd2.getD j Pos.header) (Ls j))
    (hnewId : newId = base.nodes.length)
    (hs2nodes : s2.nodes = base.nodes ++ [⟨K, v, List.replicate (newLevel + 1) none⟩])
    (hs2hf : s2.headerForward = base.headerForward)
    (hnlml : newLevel ≤ base.maxLevel) :
    ∀ c, c ≤ newLevel + 1 →
      SpliceInv base s2 K newId Ls c (SkipList.splice upd2 newId c s2) := by
  have hs2get_old : ∀ (x : Nat), x < base.nodes.length → s2.nodes[x]? = base.nodes[x]? := by
    intro x hx
    rw [hs2nodes]
    exact getElem?_append_lt hx
  have hs2get_new : s2.nodes[newId]? =
      some ⟨K, v, List.replicate (newLevel + 1) none⟩ := by
    rw [hs2nodes, hnewId]
    simp
  have hs2fwd_old : ∀ (x j : Nat), x < base.nodes.length → s2.fwdOf x j = base.fwdOf x j := by
    intro x j hx
    rw [SkipList.fwdOf, SkipList.fwdOf, hs2get_old x hx]
  have hs2fwd_new : ∀ (j : Nat), s2.fwdOf newId j = some none := by
    intro j
    rw [SkipList.fwdOf, hs2get_new, Option.map_some']
    exact congrArg some getD_replicate_self
  have hs2hfwd : ∀ (j : Nat), s2.hfwd j = base.hfwd j := by
    intro j
    rw [SkipList.hfwd, SkipList.hfwd, hs2hf]
  have hs2hflen : s2.headerForward.length = base.maxLevel + 1 := by
    rw [hs2hf]
    exact hbase.hlen
  have hs2flen_new : (s2.nodes[newId]?).map (fun nd => nd.forward.length) =
      some (newLevel + 1) := by
    rw [hs2get_new]
    simp
  have hvalid : ∀ (j : Nat), ∀ x ∈ Ls j, x < base.nodes.length :=
    fun j => (hLs j).valid
  intro c
  induction c with
  | zero =>
    intro _
    exact ⟨fun x => rfl, rfl, rfl, fun x => rfl, fun l => rfl,
      fun j _ x => rfl, fun j _ => rfl, fun j hj => absurd hj (Nat.not_lt_zero j)⟩
  | succ c ih =>
    intro hc
    have inv := ih (by omega)
    have hqc := hpred c (by omega)
    -- notation for the three states of this step
    set sc := SkipList.splice upd2 newId c s2 with hsc
    set pred := upd2.getD c Pos.header with hpredc
    -- the new node's slot in `sc`
    obtain ⟨ndN, hgetN, hlenN⟩ : ∃ nd, sc.nodes[newId]? = some nd ∧
        nd.forward.length = newLevel + 1 := by
      have h := inv.hflen newId
      rw [hs2flen_new] at h
      cases hg : sc.nodes[newId]? with
      | none => rw [hg] at h; simp at h
      | some nd =>
        rw [hg, Option.map_some'] at h
        injection h with h
        exact ⟨nd, rfl, h⟩
    -- the value read by this step is the head of the level-c drop list
    have hpred_ne_new : ∀ m : Nat, pred = Pos.node m → m < base.nodes.length := by
      intro m hm
      rcases hqc.pos with ⟨hq, _⟩ | ⟨m', hm', hq⟩
      · rw [hq] at hm; cases hm
      · rw [hq] at hm
        injection hm with hmm
        exact hmm ▸ hvalid c m' ((List.takeWhile_sublist _).mem (getLast?_mem hm'))
    have hread : sc.fwdAt pred c = base.fwdAt pred c := by
      cases hp : pred with
      | header =>
        rw [SkipList.fwdAt, SkipList.fwdAt, inv.hhfwd_hi c (le_refl c), hs2hfwd]
      | node m =>
        have hm := hpred_ne_new m hp
        rw [fwdAt_node_eq, fwdAt_node_eq, inv.hfwd_hi c (le_refl c),
          hs2fwd_old m c hm]
    have hfwd_eq := hqc.fwd_eq
    -- the two writes of this step
    set s' := sc.setNodeFwd newId c (sc.fwdAt pred c) with hs'
    set s'' := s'.setFwd pred c (some newId) with hs''
    have hstep : SkipList.splice upd2 newId (c + 1) s2 = s'' := splice_succ
    rw [hstep]
    -- effect of the two writes on `fwdOf`, split by position
    have hs'_fwd_new : s'.fwdOf newId c = some (sc.fwdAt pred c) :=
      fwdOf_setNodeFwd_self hgetN (by omega)
    have hs''_fwd_of_ne : ∀ (x j : Nat), x ≠ newId →
        pred ≠ Pos.node x → s''.fwdOf x j = sc.fwdOf x j := by
      intro x j hxn hxp
      have h1 : s'.fwdOf x j = sc.fwdOf x j := fwdOf_setNodeFwd_ne_node hxn
      cases hp : pred with
      | header => rw [hs'', hp, setFwd_header, fwdOf_setHeaderFwd, h1]
      | node m =>
        have hxm : x ≠ m := by
          intro hxm
          rw [hxm] at hxp
          exact hxp hp
        rw [hs'', hp, setFwd_node, fwdOf_setNodeFwd_ne_node hxm, h1]
    have hs''_fwd_ne_level : ∀ (x j : Nat), j ≠ c →
        s''.fwdOf x j = sc.fwdOf x j := by
      intro x j hj
      have h1 : s'.fwdOf x j = sc.fwdOf x j := fwdOf_setNodeFwd_ne_level hj
      cases hp : pred with
      | header => rw [hs'', hp, setFwd_header, fwdOf_setHeaderFwd, h1]
      | node m => rw [hs'', hp, setFwd_node, fwdOf_setNodeFwd_ne_level hj, h1]
    have hs''_hfwd_ne : ∀ (j : Nat), j ≠ c → s''.hfwd j = sc.hfwd j := by
      intro j hj
      have h1 : s'.hfwd j = sc.hfwd j := hfwd_setNodeFwd
      cases hp : pred with
      | header =>
        rw [hs'', hp, setFwd_header, hfwd_setHeaderFwd_ne (fun he => hj he.symm), h1]
      | node m => rw [hs'', hp, setFwd_node, hfwd_setNodeFwd, h1]
    have hs''_fwd_newId : pred ≠ Pos.node newId →
        s''.fwdOf newId c = some (sc.fwdAt pred c) := by
      intro hpn
      cases hp : pred with
      | header =>
        rw [hs'', hp, setFwd_header, fwdOf_setHeaderFwd, hs'_fwd_new, hp]
      | node m =>
        have hmn : (m : Nat) ≠ newId := by
          intro he
          rw [hp, he] at hpn
          exact hpn rfl
        rw [hs'', hp, setFwd_node,
          fwdOf_setNodeFwd_ne_node (fun he => hmn he.symm), hs'_fwd_new, hp]
    -- assemble the new invariant
    refine ⟨?_, ?_, ?_, ?_, ?_, ?_, ?_, ?_⟩
    · intro x
      have h1 : (s'.nodes[x]?).map (fun nd => nd.forward.length) =
          (sc.nodes[x]?).map (fun nd => nd.forward.length) := forwardLen_setNodeFwd
      cases hp : pred with
      | header => rw [hs'', hp, setFwd_header]; rw [show (s'.setHeaderFwd c (some newId)).nodes = s'.nodes from rfl, h1]; exact inv.hflen x
      | node m =>
        rw [hs'', hp, setFwd_node, forwardLen_setNodeFwd, h1]
        exact inv.hflen x
    · cases hp : pred with
      | header =>
        rw [hs'', hp, setFwd_header]
        show (s'.headerForward.set c (some newId)).length = _
        rw [List.length_set]
        rw [show s'.headerForward = sc.headerForward from headerForward_setNodeFwd]
        exact inv.hhlen
      | node m =>
        rw [hs'', hp, setFwd_node]
        rw [show ((s'.setNodeFwd m c (some newId)).headerForward) = s'.headerForward from headerForward_setNodeFwd]
        rw [show s'.headerForward = sc.headerForward from headerForward_setNodeFwd]
        exact inv.hhlen
    · cases hp : pred with
      | header =>
        rw [hs'', hp, setFwd_header]
        show s'.nodes.length = _
        rw [show s'.nodes.length = sc.nodes.length from nodes_length_setNodeFwd]
        exact inv.hnlen
      | node m =>
        rw [hs'', hp, setFwd_node]
        rw [show ((s'.setNodeFwd m c (some newId)).nodes.length) = s'.nodes.length from nodes_length_setNodeFwd]
        rw [show s'.nodes.length = sc.nodes.length from nodes_length_setNodeFwd]
        exact inv.hnlen
    · intro x
      have h1 : s'.keyD x = sc.keyD x := keyD_setNodeFwd
      cases hp : pred with
      | header =>
        rw [hs'', hp, setFwd_header]
        rw [show (s'.setHeaderFwd c (some newId)).keyD x = s'.keyD x from keyD_setHeaderFwd, h1]
        exact inv.hkey x
      | node m =>
        rw [hs'', hp, setFwd_node, keyD_setNodeFwd, h1]
        exact inv.hkey x
    · intro l
      have h1 : entriesOf s' l = entriesOf sc l := entriesOf_setNodeFwd
      cases hp : pred with
      | header =>
        rw [hs'', hp, setFwd_header]
        rw [show entriesOf (s'.setHeaderFwd c (some newId)) l = entriesOf s' l from entriesOf_setHeaderFwd, h1]
        exact inv.hentries l
      | node m =>
        rw [hs'', hp, setFwd_node, entriesOf_setNodeFwd, h1]
        exact inv.hentries l
    · intro j hj x
      rw [hs''_fwd_ne_level x j (by omega)]
      exact inv.hfwd_hi j (by omega) x
    · intro j hj
      rw [hs''_hfwd_ne j (by omega)]
      exact inv.hhfwd_hi j (by omega)
    · intro j hj
      rcases Nat.lt_or_ge j c with hjc | hjc
      · -- levels below c: frame the already-built chain through this step
        have hframe : Seg s'' j (sc.hfwd j)
            ((Ls j).takeWhile (ltK base K) ++ newId :: (Ls j).dropWhile (ltK base K))
            none :=
          Seg.frame (fun x _ => hs''_fwd_ne_level x j (by omega)) (inv.hchain_lo j hjc)
        rw [hs''_hfwd_ne j (by omega)]
        exact hframe
      · -- level c: build the new chain around the spliced node
        obtain rfl : c = j := by omega
        have hsplit_pre := hqc.split_pre
        have hsplit_post := hqc.split_post
        have hnodupc : (Ls c).Nodup := (hLs c).nodup
        have htwdw : (Ls c).takeWhile (ltK base K) ++ (Ls c).dropWhile (ltK base K) =
            Ls c := List.takeWhile_append_dropWhile _ _
        have hnd_split : ((Ls c).takeWhile (ltK base K) ++
            (Ls c).dropWhile (ltK base K)).Nodup := by
          rw [htwdw]
          exact hnodupc
        have hdisj : ∀ x ∈ (Ls c).dropWhile (ltK base K),
            x ∉ (Ls c).takeWhile (ltK base K) := by
          intro x hxd hxt
          exact (List.disjoint_of_nodup_append hnd_split) hxt hxd
        have htw_valid : ∀ x ∈ (Ls c).takeWhile (ltK base K),
            x < base.nodes.length := by
          intro x hx
          exact hvalid c x ((List.takeWhile_sublist _).mem hx)
        have hdw_valid : ∀ x ∈ (Ls c).dropWhile (ltK base K),
            x < base.nodes.length := by
          intro x hx
          exact hvalid c x ((List.dropWhile_sublist _).mem hx)
        have hdw_seg : Seg s'' c (base.fwdAt pred c)
            ((Ls c).dropWhile (ltK base K)) none := by
          refine Seg.frame ?_ hsplit_post
          intro x hx
          have hxv := hdw_valid x hx
          have hxn : x ≠ newId := by omega
          have hxp : pred ≠ Pos.node x := by
            rcases hqc.pos with ⟨hq, _⟩ | ⟨m, hm, hq⟩
            · rw [hq]
              intro h
              cases h
            · rw [hq]
              intro h
              injection h with h
              exact hdisj x hx (h ▸ getLast?_mem hm)
          rw [hs''_fwd_of_ne x c hxn hxp, inv.hfwd_hi c (le_refl c) x,
            hs2fwd_old x c hxv]
        rcases hqc.pos with ⟨hq, htw⟩ | ⟨m, hm, hq⟩
        · -- predecessor is the header: the take prefix is empty
          rw [htw, List.nil_append]
          have hhl : c < s'.headerForward.length := by
            rw [show s'.headerForward = sc.headerForward from headerForward_setNodeFwd]
            rw [inv.hhlen, hs2hflen]
            omega
          have hh : s''.hfwd c = some newId := by
            rw [hs'', hq, setFwd_header]
            exact hfwd_setHeaderFwd_self hhl
          rw [hh]
          refine Seg.cons ?_ hdw_seg
          have hpn : pred ≠ Pos.node newId := by
            rw [hq]
            intro h
            cases h
          rw [← hread]
          exact hs''_fwd_newId hpn
        · -- predecessor is the last node of the take prefix
          obtain ⟨A, hA⟩ := getLast?_decomp hm
          have hmtw : m ∈ (Ls c).takeWhile (ltK base K) := getLast?_mem hm
          have hmval : m < base.nodes.length := htw_valid m hmtw
          have hmnew : m ≠ newId := by omega
          rw [hA] at hsplit_pre
          obtain ⟨mid, hSA, hSm⟩ := Seg.split hsplit_pre
          have hmid : mid = some m := hSm.start_some
          subst hmid
          obtain ⟨nxt', hfwm, hnil⟩ := Seg.cons_inv hSm
          have hnxt' : nxt' = base.fwdAt pred c := hnil.eq_of_nil
          have hh : s''.hfwd c = base.hfwd c := by
            have h1 : s'.hfwd c = sc.hfwd c := hfwd_setNodeFwd
            rw [hs'', hq, setFwd_node, hfwd_setNodeFwd, h1,
              inv.hhfwd_hi c (le_refl c), hs2hfwd]
          have hAnodup : (A ++ [m]).Nodup := by
            rw [← hA]
            exact (List.takeWhile_sublist _).nodup hnodupc
          have hmA : m ∉ A := by
            intro hxA
            have := List.disjoint_of_nodup_append hAnodup
            exact this hxA (List.mem_singleton_self m)
          have hSA'' : Seg s'' c (base.hfwd c) A (some m) := by
            refine Seg.frame ?_ hSA
            intro x hx
            have hxv : x < base.nodes.length :=
              htw_valid x (by rw [hA]; exact List.mem_append_left _ hx)
            have hxn : x ≠ newId := by omega
            have hxm : x ≠ m := fun he => hmA (he ▸ hx)
            have hxp : pred ≠ Pos.node x := by
              rw [hq]
              intro h
              injection h with h
              exact hxm h.symm
            rw [hs''_fwd_of_ne x c hxn hxp, inv.hfwd_hi c (le_refl c) x,
              hs2fwd_old x c hxv]
          obtain ⟨ndm, hgm, hlm⟩ : ∃ nd, s'.nodes[m]? = some nd ∧
              c < nd.forward.length := by
            have h1 : (s'.nodes[m]?).map (fun nd => nd.forward.length) =
                (sc.nodes[m]?).map (fun nd => nd.forward.length) := forwardLen_setNodeFwd
            have h2 := inv.hflen m
            have h3 : s2.nodes[m]? = base.nodes[m]? := hs2get_old m hmval
            have hmem : m ∈ Ls c := (List.takeWhile_sublist _).mem hmtw
            obtain ⟨nd0, hnd0⟩ := (hLs c).get_some m hmem
            have hcl := hbase.chain_len c (Ls c) (hLs c) m hmem nd0 hnd0
            rw [h3, hnd0, Option.map_some'] at h2
            rw [h2] at h1
            cases hg : s'.nodes[m]? with
            | none => rw [hg] at h1; simp at h1
            | some nd =>
              rw [hg, Option.map_some'] at h1
              injection h1 with h1
              exact ⟨nd, rfl, by omega⟩
          have hfwm'' : s''.fwdOf m c = some (some newId) := by
            rw [hs'', hq, setFwd_node]
            exact fwdOf_setNodeFwd_self hgm hlm
          have hfwN'' : s''.fwdOf newId c = some (base.fwdAt pred c) := by
            rw [← hread]
            refine hs''_fwd_newId ?_
            rw [hq]
            intro h
            injection h with h
            exact hmnew h
          rw [hA]
          have hSeg2 : Seg s'' c (some newId)
              (newId :: (Ls c).dropWhile (ltK base K)) none :=
            Seg.cons hfwN'' hdw_seg
          have hSeg1 : Seg s'' c (some m)
              (m :: newId :: (Ls c).dropWhile (ltK base K)) none :=
            Seg.cons hfwm'' hSeg2
          have hall := Seg.append hSA'' hSeg1
          rw [hh]
          simpa using hall

/-! ### Projections preserved by the pointer writes and the splicing loop -/

theorem misc_setNodeFwd {s : SkipList V} {nid i : Nat} {r : NodeRef} :
    (s.setNodeFwd nid i r).maxLevel = s.maxLevel ∧
      (s.setNodeFwd nid i r).level = s.level ∧
      (s.setNodeFwd nid i r).probability = s.probability := by
  rw [SkipList.setNodeFwd]
  cases s.nodes[nid]? <;> exact ⟨rfl, rfl, rfl⟩

theorem misc_setFwd {s : SkipList V} {p : Pos} {i : Nat} {r : NodeRef} :
    (s.setFwd p i r).maxLevel = s.maxLevel ∧
      (s.setFwd p i r).level = s.level ∧
      (s.setFwd p i r).probability = s.probability := by
  cases p with
  | header => exact ⟨rfl, rfl, rfl⟩
  | node nid => exact misc_setNodeFwd

theorem misc_splice {upd : List Pos} {newId : Nat} {s2 : SkipList V} :
    ∀ c, (SkipList.splice upd newId c s2).maxLevel = s2.maxLevel ∧
      (SkipList.splice upd newId c s2).level = s2.level ∧
      (SkipList.splice upd newId c s2).probability = s2.probability := by
  intro c
  induction c with
  | zero => exact ⟨rfl, rfl, rfl⟩
  | succ c ih =>
    rw [splice_succ]
    refine ⟨?_, ?_, ?_⟩
    · rw [misc_setFwd.1, misc_setNodeFwd.1, ih.1]
    · rw [misc_setFwd.2.1, misc_setNodeFwd.2.1, ih.2.1]
    · rw [misc_setFwd.2.2, misc_setNodeFwd.2.2, ih.2.2]

/-! ### Building the invariant from one canonical chain family -/

theorem WF.of_canonical {s' : SkipList V} (Ns : Nat → List Nat)
    (hlen : s'.headerForward.length = s'.maxLevel + 1)
    (hlev : s'.level ≤ s'.maxLevel)
    (hch : ∀ i, Seg s' i (s'.hfwd i) (Ns i) none)
    (hsorted : ∀ i, (Ns i).Pairwise (fun a b => s'.keyD a < s'.keyD b))
    (hsub : ∀ i, ∀ n ∈ Ns (i + 1), n ∈ Ns i)
    (habove : ∀ i, s'.level < i → s'.hfwd i = none)
    (htop : s'.level = 0 ∨ s'.hfwd s'.level ≠ none)
    (hclen : ∀ i, ∀ nid ∈ Ns i, ∀ nd, s'.nodes[nid]? = some nd →
      i < nd.forward.length) : WF s' := by
  refine ⟨hlen, hlev, fun i => ⟨Ns i, hch i⟩, ?_, ?_, habove, htop, ?_⟩
  · intro i l hl
    obtain rfl := Seg.det hl (hch i)
    exact hsorted i
  · intro i l l' hl' hl
    obtain rfl := Seg.det hl (hch i)
    obtain rfl := Seg.det hl' (hch (i + 1))
    exact hsub i
  · intro i l hl
    obtain rfl := Seg.det hl (hch i)
    exact hclen i

/-! ### Membership in the take/drop split of a sorted chain -/

theorem mem_takeWhile_of_lt {s : SkipList V} {K : Int} {l : List Nat} {x : Nat}
    (hp : l.Pairwise (fun a b => s.keyD a < s.keyD b)) (hx : x ∈ l)
    (hk : s.keyD x < K) : x ∈ l.takeWhile (ltK s K) := by
  induction l with
  | nil => simp at hx
  | cons a t ih =>
    rcases List.mem_cons.mp hx with rfl | hx'
    · rw [List.takeWhile_cons, if_pos (by simp [ltK]; exact hk)]
      exact List.mem_cons_self _ _
    · have ha : s.keyD a < s.keyD x := (List.pairwise_cons.mp hp).1 x hx'
      rw [List.takeWhile_cons, if_pos (by simp [ltK]; omega)]
      exact List.mem_cons_of_mem _ (ih (List.pairwise_cons.mp hp).2 hx')

theorem mem_dropWhile_of_not {α : Type _} {p : α → Bool} {l : List α} {x : α}
    (hx : x ∈ l) (h : p x = false) : x ∈ l.dropWhile p := by
  have hsplit : l.takeWhile p ++ l.dropWhile p = l := List.takeWhile_append_dropWhile _ _
  rw [← hsplit] at hx
  rcases List.mem_append.mp hx with htw | hdw
  · have := List.mem_takeWhile_imp htw
    rw [h] at this
    cases this
  · exact hdw

/-! ### Abstract insertion around a key split -/

theorem absInsert_middle {es1 es2 : List (Int × V)} {K : Int} {v : V}
    (h1 : ∀ kv ∈ es1, kv.1 < K) (h2 : ∀ kv ∈ es2, K < kv.1) :
    absInsert K v (es1 ++ es2) = es1 ++ (K, v) :: es2 := by
  induction es1 with
  | nil =>
    cases es2 with
    | nil => rfl
    | cons b t =>
      obtain ⟨bk, bv⟩ := b
      have hb : K < bk := h2 (bk, bv) (List.mem_cons_self _ _)
      rw [List.nil_append, absInsert, if_pos hb, List.nil_append]
  | cons a t ih =>
    obtain ⟨ak, av⟩ := a
    have ha : ak < K := h1 (ak, av) (List.mem_cons_self _ _)
    rw [List.cons_append, absInsert, if_neg (by omega), if_neg (by omega),
      List.cons_append, ih (fun kv hkv => h1 kv (List.mem_cons_of_mem _ hkv))]

theorem absInsert_found {es1 es2 : List (Int × V)} {K : Int} {v w : V}
    (h1 : ∀ kv ∈ es1, kv.1 < K) :
    absInsert K v (es1 ++ (K, w) :: es2) = es1 ++ (K, v) :: es2 := by
  induction es1 with
  | nil => rw [List.nil_append, absInsert, if_neg (by omega), if_pos rfl, List.nil_append]
  | cons a t ih =>
    obtain ⟨ak, av⟩ := a
    have ha : ak < K := h1 (ak, av) (List.mem_cons_self _ _)
    rw [List.cons_append, absInsert, if_neg (by omega), if_neg (by omega),
      List.cons_append, ih (fun kv hkv => h1 kv (List.mem_cons_of_mem _ hkv))]

theorem entriesOf_congr {s s' : SkipList V} {l : List Nat}
    (h : ∀ x ∈ l, s'.nodes[x]? = s.nodes[x]?) : entriesOf s' l = entriesOf s l := by
  induction l with
  | nil => rfl
  | cons a t ih =>
    rw [entriesOf, List.flatMap_cons, entriesOf, List.flatMap_cons,
      h a (List.mem_cons_self _ _)]
    exact congrArg _ (ih (fun x hx => h x (List.mem_cons_of_mem _ hx)))

theorem getD_append_ge {α : Type _} {l l' : List α} {j : Nat} {d : α}
    (h : l.length ≤ j) : (l ++ l').getD j d = l'.getD (j - l.length) d := by
  rw [List.getD_eq_getElem?_getD, List.getD_eq_getElem?_getD, List.getElem?_append,
    if_neg (by omega)]

/-! ### Correctness of the fresh-insert path -/

theorem insertFresh_core {s s1 : SkipList V} (hw : WF s) {K : Int} {v : V}
    {nl : Nat} {upd2 : List Pos} {Ls : Nat → List Nat}
    (hLs : ∀ j, Seg s j (s.hfwd j) (Ls j) none)
    (hnl : nl ≤ s.maxLevel)
    (hnf : ∀ x ∈ Ls 0, s.keyD x ≠ K)
    (hpred2 : ∀ j, j ≤ nl → PredAt s K j (upd2.getD j Pos.header) (Ls j))
    (h1nodes : s1.nodes = s.nodes)
    (h1hf : s1.headerForward = s.headerForward)
    (h1max : s1.maxLevel = s.maxLevel)
    (h1prob : s1.probability = s.probability)
    (h1lev : (s.level < nl ∧ s1.level = nl) ∨ (nl ≤ s.level ∧ s1.level = s.level)) :
    WF (SkipList.splice upd2 s1.nodes.length (nl + 1)
        { s1 with nodes := s1.nodes ++ [⟨K, v, List.replicate (nl + 1) none⟩] }) ∧
    (SkipList.splice upd2 s1.nodes.length (nl + 1)
        { s1 with nodes := s1.nodes ++ [⟨K, v, List.replicate (nl + 1) none⟩] }).to_list =
      absInsert K v s.to_list ∧
    (SkipList.splice upd2 s1.nodes.length (nl + 1)
        { s1 with nodes := s1.nodes ++ [⟨K, v, List.replicate (nl + 1) none⟩] }).maxLevel =
      s.maxLevel ∧
    (SkipList.splice upd2 s1.nodes.length (nl + 1)
        { s1 with nodes := s1.nodes ++ [⟨K, v, List.replicate (nl + 1) none⟩] }).probability =
      s.probability := by
  classical
  set newId := s1.nodes.length with hnewId0
  have hnewId : newId = s.nodes.length := by rw [hnewId0, h1nodes]
  set s2 : SkipList V :=
    { s1 with nodes := s1.nodes ++ [⟨K, v, List.replicate (nl + 1) none⟩] } with hs2def
  have hs2nodes : s2.nodes = s.nodes ++ [⟨K, v, List.replicate (nl + 1) none⟩] := by
    rw [hs2def]
    show s1.nodes ++ _ = _
    rw [h1nodes]
  have hs2hf : s2.headerForward = s.headerForward := by
    rw [hs2def]
    show s1.headerForward = _
    exact h1hf
  have hs2max : s2.maxLevel = s.maxLevel := h1max
  have hs2prob : s2.probability = s.probability := h1prob
  have hs2lev : s2.level = s1.level := rfl
  have inv := splice_invariant hw hLs hpred2 hnewId hs2nodes hs2hf hnl (nl + 1) (le_refl _)
  set sF := SkipList.splice upd2 newId (nl + 1) s2 with hsF
  -- basic arena facts about s2
  have hs2get_old : ∀ (x : Nat), x < s.nodes.length → s2.nodes[x]? = s.nodes[x]? := by
    intro x hx
    rw [hs2nodes]
    exact getElem?_append_lt hx
  have hs2get_new : s2.nodes[newId]? =
      some ⟨K, v, List.replicate (nl + 1) none⟩ := by
    rw [hs2nodes, hnewId]
    simp
  have hs2hfwd : ∀ (j : Nat), s2.hfwd j = s.hfwd j := by
    intro j
    rw [SkipList.hfwd, SkipList.hfwd, hs2hf]
  have hvalid : ∀ (j : Nat), ∀ x ∈ Ls j, x < s.nodes.length := fun j => (hLs j).valid
  have hkeyF_old : ∀ (x : Nat), x < s.nodes.length → sF.keyD x = s.keyD x := by
    intro x hx
    rw [inv.hkey x, SkipList.keyD, SkipList.keyD, hs2get_old x hx]
  have hkeyF_new : sF.keyD newId = K := by
    rw [inv.hkey newId, SkipList.keyD, hs2get_new]
  -- key bounds of the two halves
  have hsub0 : ∀ (j : Nat), ∀ x ∈ Ls j, x ∈ Ls 0 := by
    intro j
    induction j with
    | zero => exact fun x hx => hx
    | succ n ih =>
      intro x hx
      exact ih x (hw.subset n (Ls n) (Ls (n + 1)) (hLs (n + 1)) (hLs n) x hx)
  have htw_lt : ∀ (j : Nat), ∀ x ∈ (Ls j).takeWhile (ltK s K), s.keyD x < K :=
    fun j x hx => mem_takeWhile_key_lt hx
  have hdw_gt : ∀ (j : Nat), ∀ x ∈ (Ls j).dropWhile (ltK s K), K < s.keyD x := by
    intro j x hx
    have hge := dropWhile_key_ge (hw.sorted j (Ls j) (hLs j)) x hx
    have hne := hnf x (hsub0 j x ((List.dropWhile_sublist _).mem hx))
    omega
  -- canonical chains of the new state
  set Ns : Nat → List Nat := fun j =>
    if j ≤ nl then
      (Ls j).takeWhile (ltK s K) ++ newId :: (Ls j).dropWhile (ltK s K)
    else Ls j with hNs
  have hsplitLs : ∀ (j : Nat),
      (Ls j).takeWhile (ltK s K) ++ (Ls j).dropWhile (ltK s K) = Ls j :=
    fun j => List.takeWhile_append_dropWhile _ _
  have hmem_old : ∀ (j : Nat), ∀ x ∈ Ns j, x = newId ∨ (x ∈ Ls j ∧ x < s.nodes.length) := by
    intro j x hx
    simp only [hNs] at hx
    by_cases hj : j ≤ nl
    · rw [if_pos hj] at hx
      rcases List.mem_append.mp hx with htw | hcons
      · have : x ∈ Ls j := (List.takeWhile_sublist _).mem htw
        exact Or.inr ⟨this, hvalid j x this⟩
      · rcases List.mem_cons.mp hcons with rfl | hdw
        · exact Or.inl rfl
        · have : x ∈ Ls j := (List.dropWhile_sublist _).mem hdw
          exact Or.inr ⟨this, hvalid j x this⟩
    · rw [if_neg hj] at hx
      exact Or.inr ⟨hx, hvalid j x hx⟩
  have hchF : ∀ (j : Nat), Seg sF j (sF.hfwd j) (Ns j) none := by
    intro j
    simp only [hNs]
    by_cases hj : j ≤ nl
    · rw [if_pos hj]
      exact inv.hchain_lo j (by omega)
    · rw [if_neg hj]
      have hh : sF.hfwd j = s.hfwd j := by
        rw [inv.hhfwd_hi j (by omega), hs2hfwd]
      rw [hh]
      refine Seg.frame ?_ (hLs j)
      intro x hx
      rw [inv.hfwd_hi j (by omega) x, SkipList.fwdOf, SkipList.fwdOf,
        hs2get_old x (hvalid j x hx)]
  -- sortedness of the new chains
  have hsortedF : ∀ (j : Nat), (Ns j).Pairwise (fun a b => sF.keyD a < sF.keyD b) := by
    intro j
    have hsj := hw.sorted j (Ls j) (hLs j)
    simp only [hNs]
    by_cases hj : j ≤ nl
    · rw [if_pos hj]
      rw [List.pairwise_append]
      refine ⟨?_, ?_, ?_⟩
      · have htw := hsj.sublist (List.takeWhile_sublist (ltK s K))
        refine htw.imp_of_mem ?_
        intro a b ha hb hab
        rw [hkeyF_old a (hvalid j a ((List.takeWhile_sublist _).mem ha)),
          hkeyF_old b (hvalid j b ((List.takeWhile_sublist _).mem hb))]
        exact hab
      · rw [List.pairwise_cons]
        refine ⟨?_, ?_⟩
        · intro x hx
          rw [hkeyF_new, hkeyF_old x (hvalid j x ((List.dropWhile_sublist _).mem hx))]
          exact hdw_gt j x hx
        · have hdw := hsj.sublist (List.dropWhile_sublist (ltK s K))
          refine hdw.imp_of_mem ?_
          intro a b ha hb hab
          rw [hkeyF_old a (hvalid j a ((List.dropWhile_sublist _).mem ha)),
            hkeyF_old b (hvalid j b ((List.dropWhile_sublist _).mem hb))]
          exact hab
      · intro a ha b hb
        have hka : sF.keyD a < K := by
          rw [hkeyF_old a (hvalid j a ((List.takeWhile_sublist _).mem ha))]
          exact htw_lt j a ha
        rcases List.mem_cons.mp hb with rfl | hbd
        · rw [hkeyF_new]; exact hka
        · have : K < sF.keyD b := by
            rw [hkeyF_old b (hvalid j b ((List.dropWhile_sublist _).mem hbd))]
            exact hdw_gt j b hbd
          omega
    · rw [if_neg hj]
      refine hsj.imp_of_mem ?_
      intro a b ha hb hab
      rw [hkeyF_old a (hvalid j a ha), hkeyF_old b (hvalid j b hb)]
      exact hab
  -- the subset relation between consecutive new chains
  have hsubF : ∀ (j : Nat), ∀ n ∈ Ns (j + 1), n ∈ Ns j := by
    intro j n hn
    simp only [hNs] at hn ⊢
    by_cases hj1 : j + 1 ≤ nl
    · rw [if_pos hj1] at hn
      rw [if_pos (by omega)]
      rcases List.mem_append.mp hn with htw | hcons
      · have hmem : n ∈ Ls (j + 1) := (List.takeWhile_sublist _).mem htw
        have hmemj : n ∈ Ls j := hw.subset j _ _ (hLs (j + 1)) (hLs j) n hmem
        have hlt : s.keyD n < K := htw_lt (j + 1) n htw
        exact List.mem_append_left _
          (mem_takeWhile_of_lt (hw.sorted j (Ls j) (hLs j)) hmemj hlt)
      · rcases List.mem_cons.mp hcons with rfl | hdw
        · exact List.mem_append_right _ (List.mem_cons_self _ _)
        · have hmem : n ∈ Ls (j + 1) := (List.dropWhile_sublist _).mem hdw
          have hmemj : n ∈ Ls j := hw.subset j _ _ (hLs (j + 1)) (hLs j) n hmem
          have hgt : K < s.keyD n := hdw_gt (j + 1) n hdw
          have hnp : ltK s K n = false := by
            simp only [ltK, decide_eq_false_iff_not]
            omega
          exact List.mem_append_right _
            (List.mem_cons_of_mem _ (mem_dropWhile_of_not hmemj hnp))
    · rw [if_neg hj1] at hn
      by_cases hj : j ≤ nl
      · -- j = nl exactly
        rw [if_pos hj]
        have hmemj : n ∈ Ls j := hw.subset j _ _ (hLs (j + 1)) (hLs j) n hn
        rw [← hsplitLs j] at hmemj
        rcases List.mem_append.mp hmemj with htw | hdw
        · exact List.mem_append_left _ htw
        · exact List.mem_append_right _ (List.mem_cons_of_mem _ hdw)
      · rw [if_neg hj]
        exact hw.subset j _ _ (hLs (j + 1)) (hLs j) n hn
  -- projections
  have hFmax : sF.maxLevel = s.maxLevel := by
    rw [hsF, (misc_splice (nl + 1)).1, hs2max]
  have hFprob : sF.probability = s.probability := by
    rw [hsF, (misc_splice (nl + 1)).2.2, hs2prob]
  have hFlev : sF.level = s1.level := by
    rw [hsF, (misc_splice (nl + 1)).2.1, hs2lev]
  have hFhlen : sF.headerForward.length = s.maxLevel + 1 := by
    rw [inv.hhlen]
    rw [show s2.headerForward.length = s.headerForward.length from by rw [hs2hf]]
    exact hw.hlen
  -- head pointers above the current level
  have hFhfwd_old : ∀ (i : Nat), nl + 1 ≤ i → sF.hfwd i = s.hfwd i := by
    intro i hi
    rw [inv.hhfwd_hi i hi, hs2hfwd]
  -- the chain at a level `≤ nl` is nonempty, so its head pointer is set
  have hFtop_ne : ∀ (i : Nat), i ≤ nl → sF.hfwd i ≠ none := by
    intro i hi
    have hch := hchF i
    simp only [hNs] at hch
    rw [if_pos hi] at hch
    cases hl : (Ls i).takeWhile (ltK s K) ++ newId :: (Ls i).dropWhile (ltK s K) with
    | nil => simp at hl
    | cons a t =>
      rw [hl] at hch
      rw [hch.start_some]
      simp
  refine ⟨?_, ?_, hFmax, hFprob⟩
  · refine WF.of_canonical Ns ?_ ?_ hchF hsortedF hsubF ?_ ?_ ?_
    · rw [hFhlen, hFmax]
    · rw [hFlev, hFmax]
      rcases h1lev with ⟨-, hl⟩ | ⟨-, hl⟩
      · rw [hl]; exact hnl
      · rw [hl]; exact hw.hlev
    · intro i hi
      rw [hFlev] at hi
      rcases h1lev with ⟨hraise, hl⟩ | ⟨hno, hl⟩
      · rw [hl] at hi
        rw [hFhfwd_old i (by omega)]
        exact hw.above i (by omega)
      · rw [hl] at hi
        rw [hFhfwd_old i (by omega)]
        exact hw.above i hi
    · rw [hFlev]
      rcases h1lev with ⟨hraise, hl⟩ | ⟨hno, hl⟩
      · rw [hl]
        exact Or.inr (hFtop_ne nl (le_refl _))
      · rw [hl]
        rcases hw.top with hz | hnn
        · exact Or.inl hz
        · by_cases hsl : s.level ≤ nl
          · exact Or.inr (hFtop_ne s.level hsl)
          · refine Or.inr ?_
            rw [hFhfwd_old s.level (by omega)]
            exact hnn
    · intro i nid hmem nd hget
      have hflen := inv.hflen nid
      rcases hmem_old i nid hmem with rfl | ⟨hmemL, hlt⟩
      · rw [hget, hs2get_new] at hflen
        simp at hflen
        rw [hflen]
        simp only [hNs] at hmem
        by_cases hi : i ≤ nl
        · omega
        · rw [if_neg hi] at hmem
          exact absurd (hvalid i _ hmem) (by omega)
      · rw [hget, hs2get_old nid hlt] at hflen
        obtain ⟨nd0, hnd0⟩ := (hLs i).get_some nid hmemL
        rw [hnd0, Option.map_some', Option.map_some'] at hflen
        injection hflen with hflen
        rw [hflen]
        exact hw.chain_len i (Ls i) (hLs i) nid hmemL nd0 hnd0
  · -- the ordered contents
    have hch0 := hchF 0
    simp only [hNs] at hch0
    rw [if_pos (Nat.zero_le _)] at hch0
    rw [to_list_eq_entriesOf hch0, inv.hentries, entriesOf_append,
      entriesOf_cons hs2get_new]
    have htw_congr : entriesOf s2 ((Ls 0).takeWhile (ltK s K)) =
        entriesOf s ((Ls 0).takeWhile (ltK s K)) :=
      entriesOf_congr (fun x hx =>
        hs2get_old x (hvalid 0 x ((List.takeWhile_sublist _).mem hx)))
    have hdw_congr : entriesOf s2 ((Ls 0).dropWhile (ltK s K)) =
        entriesOf s ((Ls 0).dropWhile (ltK s K)) :=
      entriesOf_congr (fun x hx =>
        hs2get_old x (hvalid 0 x ((List.dropWhile_sublist _).mem hx)))
    rw [htw_congr, hdw_congr]
    have hrhs : absInsert K v s.to_list =
        entriesOf s ((Ls 0).takeWhile (ltK s K)) ++
          (K, v) :: entriesOf s ((Ls 0).dropWhile (ltK s K)) := by
      rw [to_list_eq_entriesOf (hLs 0)]
      conv_lhs => rw [← hsplitLs 0]
      rw [entriesOf_append]
      refine absInsert_middle ?_ ?_
      · intro kv hkv
        obtain ⟨nid, hmem, hkeq⟩ := key_of_mem_entriesOf hkv
        rw [hkeq]
        exact htw_lt 0 nid hmem
      · intro kv hkv
        obtain ⟨nid, hmem, hkeq⟩ := key_of_mem_entriesOf hkv
        rw [hkeq]
        exact hdw_gt 0 nid hmem
    rw [hrhs]

theorem predAt_empty {s : SkipList V} {K : Int} {j : Nat} (h : s.hfwd j = none) :
    PredAt s K j Pos.header [] := by
  refine ⟨?_, ?_, Or.inl ⟨rfl, rfl⟩⟩
  · exact Seg.nil _
  · show Seg s j (s.fwdAt Pos.header j) [] none
    have hfa : s.fwdAt Pos.header j = none := h
    rw [hfa]
    exact Seg.nil none

theorem insertFresh_correct {s : SkipList V} (hw : WF s) {K : Int} {v : V} {nl : Nat}
    (hnl : nl ≤ s.maxLevel) {Ls : Nat → List Nat}
    (hLs : ∀ j, Seg s j (s.hfwd j) (Ls j) none)
    (hnf : ∀ x ∈ Ls 0, s.keyD x ≠ K) :
    WF (s.insertFresh K v nl (s.descend K s.level Pos.header).2) ∧
    (s.insertFresh K v nl (s.descend K s.level Pos.header).2).to_list =
      absInsert K v s.to_list ∧
    (s.insertFresh K v nl (s.descend K s.level Pos.header).2).maxLevel = s.maxLevel ∧
    (s.insertFresh K v nl (s.descend K s.level Pos.header).2).probability =
      s.probability := by
  obtain ⟨hulen, hupred, -⟩ := descend_spec hw K s.level Pos.header (Or.inl rfl)
  by_cases hraise : s.level < nl
  · have heq : s.insertFresh K v nl (s.descend K s.level Pos.header).2 =
        SkipList.splice
          ((s.descend K s.level Pos.header).2 ++
            List.replicate (nl - s.level) Pos.header)
          (({ s with level := nl } : SkipList V).nodes.length) (nl + 1)
          { ({ s with level := nl } : SkipList V) with
            nodes := ({ s with level := nl } : SkipList V).nodes ++
              [⟨K, v, List.replicate (nl + 1) none⟩] } := by
      rw [SkipList.insertFresh]
      rw [if_pos hraise, if_pos hraise]
    rw [heq]
    refine insertFresh_core hw hLs hnl hnf ?_ rfl rfl rfl rfl (Or.inl ⟨hraise, rfl⟩)
    intro j hj
    rcases Nat.lt_or_ge j (s.level + 1) with hjlt | hjge
    · rw [getD_append_lt (by rw [hulen]; omega)]
      exact hupred j (by omega) (Ls j) (hLs j)
    · rw [getD_append_ge (by rw [hulen]; omega), getD_replicate_self]
      have habove : s.hfwd j = none := hw.above j (by omega)
      have hLsj : Ls j = [] := by
        have hseg := hLs j
        rw [habove] at hseg
        exact hseg.none_inv.1
      rw [hLsj]
      exact predAt_empty habove
  · have heq : s.insertFresh K v nl (s.descend K s.level Pos.header).2 =
        SkipList.splice (s.descend K s.level Pos.header).2
          (s.nodes.length) (nl + 1)
          { s with nodes := s.nodes ++ [⟨K, v, List.replicate (nl + 1) none⟩] } := by
      rw [SkipList.insertFresh]
      rw [if_neg hraise, if_neg hraise]
    rw [heq]
    refine insertFresh_core hw hLs hnl hnf ?_ rfl rfl rfl rfl
      (Or.inr ⟨by omega, rfl⟩)
    intro j hj
    exact hupred j (by omega) (Ls j) (hLs j)

theorem insertAt_correct {s : SkipList V} (hw : WF s) (K : Int) (v : V) {nl : Nat}
    (hnl : nl ≤ s.maxLevel) :
    WF (s.insertAt K v nl) ∧
    (s.insertAt K v nl).to_list = absInsert K v s.to_list ∧
    (s.insertAt K v nl).maxLevel = s.maxLevel ∧
    (s.insertAt K v nl).probability = s.probability := by
  classical
  choose Ls hLs using hw.chains
  obtain ⟨hulen, hupred, hufst⟩ := descend_spec hw K s.level Pos.header (Or.inl rfl)
  have hq0 : PredAt s K 0
      ((s.descend K s.level Pos.header).2.getD 0 Pos.header) (Ls 0) :=
    hupred 0 (Nat.zero_le _) (Ls 0) (hLs 0)
  have hfwd0 : s.fwdAt (s.descend K s.level Pos.header).1 0 =
      ((Ls 0).dropWhile (ltK s K)).head? := by
    rw [hufst]
    exact hq0.fwd_eq
  have hsorted0 := hw.sorted 0 (Ls 0) (hLs 0)
  have hnodup0 : (Ls 0).Nodup := (hLs 0).nodup
  have hsplit0 : (Ls 0).takeWhile (ltK s K) ++ (Ls 0).dropWhile (ltK s K) = Ls 0 :=
    List.takeWhile_append_dropWhile _ _
  cases hcur : s.fwdAt (s.descend K s.level Pos.header).1 0 with
  | none =>
    have hins : s.insertAt K v nl =
        s.insertFresh K v nl (s.descend K s.level Pos.header).2 := by
      rw [SkipList.insertAt, hcur]
    have hdw0 : (Ls 0).dropWhile (ltK s K) = [] := by
      rw [hcur] at hfwd0
      cases hd : (Ls 0).dropWhile (ltK s K) with
      | nil => rfl
      | cons a t => rw [hd] at hfwd0; simp at hfwd0
    have hnf : ∀ x ∈ Ls 0, s.keyD x ≠ K := by
      intro x hx
      rw [← hsplit0, hdw0, List.append_nil] at hx
      have := mem_takeWhile_key_lt (s := s) (K := K) hx
      omega
    rw [hins]
    exact insertFresh_correct hw hnl hLs hnf
  | some nid =>
    rw [hcur] at hfwd0
    obtain ⟨tdw, hdw0⟩ : ∃ t, (Ls 0).dropWhile (ltK s K) = nid :: t := by
      cases hd : (Ls 0).dropWhile (ltK s K) with
      | nil => rw [hd] at hfwd0; simp at hfwd0
      | cons a t =>
        rw [hd] at hfwd0
        simp at hfwd0
        exact ⟨t, by rw [hfwd0]⟩
    have hsegdw : Seg s 0 (some nid) (nid :: tdw) none := by
      have hsp := hq0.split_post
      rw [hq0.fwd_eq, hdw0, List.head?_cons] at hsp
      exact hsp
    obtain ⟨nxt, hfwn, hrest⟩ : ∃ nxt, s.fwdOf nid 0 = some nxt ∧
        Seg s 0 nxt tdw none := Seg.cons_inv hsegdw
    obtain ⟨nd, hg⟩ : ∃ nd, s.nodes[nid]? = some nd := by
      rw [SkipList.fwdOf] at hfwn
      cases hgg : s.nodes[nid]? with
      | none => rw [hgg] at hfwn; simp at hfwn
      | some nd => exact ⟨nd, rfl⟩
    have hkeynid : s.keyD nid = nd.key := by rw [SkipList.keyD, hg]
    by_cases hKa : nd.key = K
    · -- the key exists: overwrite the value in place
      have hins : s.insertAt K v nl =
          { s with nodes := s.nodes.set nid { nd with value := v } } := by
        simp only [SkipList.insertAt, hcur, hg]
        rw [if_pos hKa]
      set sv : SkipList V :=
        { s with nodes := s.nodes.set nid { nd with value := v } } with hsv
      have hvget_ne : ∀ (x : Nat), x ≠ nid → sv.nodes[x]? = s.nodes[x]? :=
        fun x hx => List.getElem?_set_ne (fun he => hx he.symm)
      have hvget_self : sv.nodes[nid]? = some { nd with value := v } := by
        show (s.nodes.set nid _)[nid]? = _
        rw [List.getElem?_set_self', hg]
        rfl
      have hvfwd : ∀ (x j : Nat), sv.fwdOf x j = s.fwdOf x j := by
        intro x j
        by_cases hx : x = nid
        · subst hx
          rw [SkipList.fwdOf, SkipList.fwdOf, hvget_self, hg]
          rfl
        · rw [SkipList.fwdOf, SkipList.fwdOf, hvget_ne x hx]
      have hvkey : ∀ (x : Nat), sv.keyD x = s.keyD x := by
        intro x
        by_cases hx : x = nid
        · subst hx
          rw [SkipList.keyD, SkipList.keyD, hvget_self, hg]
        · rw [SkipList.keyD, SkipList.keyD, hvget_ne x hx]
      have hvflen : ∀ (x : Nat), (sv.nodes[x]?).map (fun nd => nd.forward.length) =
          (s.nodes[x]?).map (fun nd => nd.forward.length) := by
        intro x
        by_cases hx : x = nid
        · subst hx
          rw [hvget_self, hg]
          rfl
        · rw [hvget_ne x hx]
      have hwv : WF sv :=
        hw.congr (by rw [hsv]) rfl rfl (fun j => rfl) hvfwd hvkey hvflen
      have hvchain : Seg sv 0 (sv.hfwd 0) (Ls 0) none :=
        Seg.frame (fun x _ => hvfwd x 0) (hLs 0)
      have hnid_tdw : nid ∉ tdw := by
        have hnd : ((Ls 0).dropWhile (ltK s K)).Nodup :=
          hnodup0.sublist (List.dropWhile_sublist _)
        rw [hdw0, List.nodup_cons] at hnd
        exact hnd.1
      have hnid_tw : nid ∉ (Ls 0).takeWhile (ltK s K) := by
        intro hmem
        have hd := List.disjoint_of_nodup_append (by rw [hsplit0]; exact hnodup0)
        exact hd hmem (by rw [hdw0]; exact List.mem_cons_self _ _)
      have htolist : sv.to_list = absInsert K v s.to_list := by
        rw [to_list_eq_entriesOf hvchain]
        conv_lhs => rw [← hsplit0, hdw0]
        rw [entriesOf_append, entriesOf_cons hvget_self]
        have h1 : entriesOf sv ((Ls 0).takeWhile (ltK s K)) =
            entriesOf s ((Ls 0).takeWhile (ltK s K)) :=
          entriesOf_congr (fun x hx => hvget_ne x (fun he => hnid_tw (he ▸ hx)))
        have h2 : entriesOf sv tdw = entriesOf s tdw :=
          entriesOf_congr (fun x hx => hvget_ne x (fun he => hnid_tdw (he ▸ hx)))
        rw [h1, h2]
        have hrhs : absInsert K v s.to_list =
            entriesOf s ((Ls 0).takeWhile (ltK s K)) ++
              (K, v) :: entriesOf s tdw := by
          rw [to_list_eq_entriesOf (hLs 0)]
          conv_lhs => rw [← hsplit0, hdw0]
          rw [entriesOf_append, entriesOf_cons hg]
          rw [show nd.key = K from hKa]
          refine absInsert_found ?_
          intro kv hkv
          obtain ⟨x, hmem, hkeq⟩ := key_of_mem_entriesOf hkv
          rw [hkeq]
          exact mem_takeWhile_key_lt hmem
        rw [hrhs, hKa]
      rw [hins]
      exact ⟨hwv, htolist, rfl, rfl⟩
    · -- different key: insert fresh
      have hins : s.insertAt K v nl =
          s.insertFresh K v nl (s.descend K s.level Pos.header).2 := by
        simp only [SkipList.insertAt, hcur, hg]
        rw [if_neg hKa]
      have hnf : ∀ x ∈ Ls 0, s.keyD x ≠ K := by
        intro x hx
        rw [← hsplit0] at hx
        rcases List.mem_append.mp hx with htw | hdw
        · have := mem_takeWhile_key_lt (s := s) (K := K) htw
          omega
        · rw [hdw0] at hdw
          rcases List.mem_cons.mp hdw with rfl | hdw'
          · rw [hkeynid]
            exact hKa
          · have hge := dropWhile_key_ge hsorted0 x (by rw [hdw0]; exact List.mem_cons_of_mem _ hdw')
            have hsortedw : (nid :: tdw).Pairwise (fun a b => s.keyD a < s.keyD b) := by
              rw [← hdw0]
              exact hsorted0.sublist (List.dropWhile_sublist _)
            have hlt := (List.pairwise_cons.mp hsortedw).1 x hdw'
            have hnidge : K ≤ s.keyD nid := by
              have hh := dropWhile_head_not hdw0
              simp only [ltK, decide_eq_false_iff_not] at hh
              omega
            omega
      rw [hins]
      exact insertFresh_correct hw hnl hLs hnf

/-! ### The unlinking loop and level shrink of `delete` -/

theorem shrinkFrom_spec {s1 : SkipList V} :
    ∀ l, s1.shrinkFrom l ≤ l ∧
      (∀ j, s1.shrinkFrom l < j → j ≤ l → s1.hfwd j = none) ∧
      (s1.shrinkFrom l = 0 ∨ s1.hfwd (s1.shrinkFrom l) ≠ none) := by
  intro l
  induction l with
  | zero =>
    refine ⟨le_refl _, ?_, Or.inl rfl⟩
    intro j h1 h2
    rw [SkipList.shrinkFrom] at h1
    omega
  | succ l ih =>
    rw [SkipList.shrinkFrom]
    by_cases h : s1.hfwd (l + 1) = none
    · rw [if_pos h]
      refine ⟨le_trans ih.1 (by omega), ?_, ih.2.2⟩
      intro j h1 h2
      rcases Nat.lt_or_ge j (l + 1) with hj | hj
      · exact ih.2.1 j h1 (by omega)
      · have : j = l + 1 := by omega
        rw [this]
        exact h
    · rw [if_neg h]
      exact ⟨le_refl _, fun j h1 h2 => by omega, Or.inr h⟩

theorem dw_head_present {s : SkipList V} {K : Int} {L : List Nat} {tid : Nat}
    (hsorted : L.Pairwise (fun a b => s.keyD a < s.keyD b))
    (hmem : tid ∈ L) (hkeyt : s.keyD tid = K) :
    (L.dropWhile (ltK s K)).head? = some tid := by
  have htid_dw : tid ∈ L.dropWhile (ltK s K) :=
    mem_dropWhile_of_not hmem (by simp only [ltK, decide_eq_false_iff_not]; omega)
  cases hd : L.dropWhile (ltK s K) with
  | nil => rw [hd] at htid_dw; simp at htid_dw
  | cons a t =>
    rw [hd] at htid_dw
    rcases List.mem_cons.mp htid_dw with rfl | ht
    · rfl
    · have hha := dropWhile_head_not hd
      simp only [ltK, decide_eq_false_iff_not] at hha
      have hpair : (a :: t).Pairwise (fun a b => s.keyD a < s.keyD b) :=
        hsorted.sublist (hd ▸ List.dropWhile_sublist _)
      have := (List.pairwise_cons.mp hpair).1 tid ht
      omega

theorem unlink_invariant {base : SkipList V} (hw : WF base) {K : Int} {tid : Nat}
    {upd : List Pos} {Ls : Nat → List Nat}
    (hLs : ∀ j, Seg base j (base.hfwd j) (Ls j) none)
    (hpredU : ∀ j, j ≤ base.level → PredAt base K j (upd.getD j Pos.header) (Ls j))
    (hkeyt : base.keyD tid = K) :
    ∀ c, c ≤ base.level + 1 →
      UnlinkInv base K tid Ls c (SkipList.unlink upd tid c base) := by
  classical
  have hvalid : ∀ (j : Nat), ∀ x ∈ Ls j, x < base.nodes.length := fun j => (hLs j).valid
  intro c
  induction c with
  | zero =>
    intro _
    refine ⟨fun x => rfl, rfl, rfl, fun x => rfl, fun l => rfl, ⟨rfl, rfl, rfl⟩,
      ?_, ?_, ?_⟩
    · constructor
      · intro h; cases h
      · intro ⟨j, hj, _⟩; omega
    · intro j _
      exact ⟨fun x => rfl, rfl⟩
    · intro j ⟨hj, _⟩
      omega
  | succ c ih =>
    intro hc
    have inv := ih (by omega)
    have hqc := hpredU c (by omega)
    set ucb := SkipList.unlink upd tid c base with hucb
    set pred := upd.getD c Pos.header with hpredc
    have hstep : SkipList.unlink upd tid (c + 1) base =
        (if ucb.2 then ucb
         else
           match ucb.1.fwdAt pred c with
           | some n =>
             if n = tid then
               (ucb.1.setFwd pred c (ucb.1.fwdAt (.node tid) c), false)
             else (ucb.1, true)
           | none => (ucb.1, true)) := rfl
    have hkeepc := inv.hkeep c (by omega)
    have hreadc : ucb.1.fwdAt pred c = base.fwdAt pred c :=
      fwdAt_congr hkeepc.2 hkeepc.1
    have hfwd_eqc := hqc.fwd_eq
    by_cases hflag : ucb.2 = true
    · -- already stopped: nothing more happens
      rw [hstep, if_pos hflag]
      obtain ⟨j0, hj0, hj0n⟩ := inv.hflag.mp hflag
      refine ⟨inv.hflen, inv.hhlen, inv.hnlen, inv.hkey, inv.hentries, inv.hmisc,
        ?_, ?_, ?_⟩
      · constructor
        · intro _; exact ⟨j0, by omega, hj0n⟩
        · intro _; exact hflag
      · intro j hj
        refine inv.hkeep j ?_
        intro ⟨hjc, hall⟩
        exact hj ⟨by omega, hall⟩
      · intro j ⟨hj, hall⟩
        rcases Nat.lt_or_ge j c with hlt | hge
        · exact inv.hdone j ⟨hlt, hall⟩
        · exact absurd (hall j0 (by omega)) hj0n
    · -- still running: all levels below c contain the target
      have hflagf : ucb.2 = false := by
        cases hb : ucb.2 with
        | false => rfl
        | true => exact absurd hb hflag
      have hallc : ∀ j, j < c → tid ∈ Ls j := by
        intro j hj
        by_contra hno
        exact hflag (inv.hflag.mpr ⟨j, hj, hno⟩)
      by_cases hpres : tid ∈ Ls c
      · -- the target is present at level c: unlink it here
        have hhead : ((Ls c).dropWhile (ltK base K)).head? = some tid :=
          dw_head_present (hw.sorted c (Ls c) (hLs c)) hpres hkeyt
        have hmatch : ucb.1.fwdAt pred c = some tid := by
          rw [hreadc, hfwd_eqc, hhead]
        obtain ⟨rest, hrest_eq⟩ : ∃ t,
            (Ls c).dropWhile (ltK base K) = tid :: t := by
          cases hd : (Ls c).dropWhile (ltK base K) with
          | nil => rw [hd] at hhead; simp at hhead
          | cons a t =>
            rw [hd] at hhead
            simp at hhead
            exact ⟨t, by rw [hhead]⟩
        have hsegdw : Seg base c (some tid) (tid :: rest) none := by
          have hsp := hqc.split_post
          rw [hfwd_eqc, hrest_eq, List.head?_cons] at hsp
          exact hsp
        obtain ⟨nxt, hfwt, hsegrest⟩ := Seg.cons_inv hsegdw
        have hreadt : ucb.1.fwdAt (Pos.node tid) c = nxt := by
          rw [fwdAt_node_eq, hkeepc.1 tid, ← fwdAt_node_eq]
          exact fwdAt_node hfwt
        have hres : SkipList.unlink upd tid (c + 1) base =
            (ucb.1.setFwd pred c (ucb.1.fwdAt (.node tid) c), false) := by
          rw [hstep, if_neg (by rw [hflagf]; exact Bool.false_ne_true), hmatch]
          simp
        rw [hres, hreadt]
        set u' := ucb.1.setFwd pred c nxt with hu'
        -- the predecessor is never the target: its key is below K
        have hpred_ne_tid : pred ≠ Pos.node tid := by
          rcases hqc.pos with ⟨hq, _⟩ | ⟨m, hm, hq⟩
          · rw [hq]; intro h; cases h
          · rw [hq]
            intro h
            injection h with h
            have := mem_takeWhile_key_lt (s := base) (K := K) (getLast?_mem hm)
            rw [h, hkeyt] at this
            omega
        have hpred_node_mem : ∀ m : Nat, pred = Pos.node m →
            m ∈ (Ls c).takeWhile (ltK base K) := by
          intro m hm
          rcases hqc.pos with ⟨hq, _⟩ | ⟨m', hm', hq⟩
          · rw [hq] at hm; cases hm
          · rw [hq] at hm
            injection hm with hmm
            exact hmm ▸ getLast?_mem hm'
        -- effect of the single write
        have hu'_flen : ∀ (x : Nat), (u'.nodes[x]?).map (fun nd => nd.forward.length) =
            (ucb.1.nodes[x]?).map (fun nd => nd.forward.length) := by
          intro x
          cases hp : pred with
          | header => rw [hu', hp, setFwd_header]; rfl
          | node m => rw [hu', hp, setFwd_node]; exact forwardLen_setNodeFwd
        have hu'_hlen : u'.headerForward.length = ucb.1.headerForward.length := by
          cases hp : pred with
          | header =>
            rw [hu', hp, setFwd_header]
            show (ucb.1.headerForward.set c nxt).length = _
            rw [List.length_set]
          | node m =>
            rw [hu', hp, setFwd_node]
            rw [show (ucb.1.setNodeFwd m c nxt).headerForward = ucb.1.headerForward
              from headerForward_setNodeFwd]
        have hu'_nlen : u'.nodes.length = ucb.1.nodes.length := by
          cases hp : pred with
          | header => rw [hu', hp, setFwd_header]; rfl
          | node m => rw [hu', hp, setFwd_node]; exact nodes_length_setNodeFwd
        have hu'_key : ∀ x, u'.keyD x = ucb.1.keyD x := by
          intro x
          cases hp : pred with
          | header => rw [hu', hp, setFwd_header]; rfl
          | node m => rw [hu', hp, setFwd_node]; exact keyD_setNodeFwd
        have hu'_entries : ∀ l, entriesOf u' l = entriesOf ucb.1 l := by
          intro l
          cases hp : pred with
          | header => rw [hu', hp, setFwd_header]; rfl
          | node m => rw [hu', hp, setFwd_node]; exact entriesOf_setNodeFwd
        have hu'_misc : u'.maxLevel = ucb.1.maxLevel ∧ u'.level = ucb.1.level ∧
            u'.probability = ucb.1.probability := misc_setFwd
        have hu'_fwd_ne_level : ∀ (x j : Nat), j ≠ c →
            u'.fwdOf x j = ucb.1.fwdOf x j := by
          intro x j hj
          cases hp : pred with
          | header => rw [hu', hp, setFwd_header, fwdOf_setHeaderFwd]
          | node m => rw [hu', hp, setFwd_node]; exact fwdOf_setNodeFwd_ne_level hj
        have hu'_hfwd_ne : ∀ (j : Nat), j ≠ c → u'.hfwd j = ucb.1.hfwd j := by
          intro j hj
          cases hp : pred with
          | header =>
            rw [hu', hp, setFwd_header]
            exact hfwd_setHeaderFwd_ne (fun he => hj he.symm)
          | node m => rw [hu', hp, setFwd_node]; exact hfwd_setNodeFwd
        have hu'_fwd_of_ne : ∀ (x : Nat), pred ≠ Pos.node x →
            u'.fwdOf x c = ucb.1.fwdOf x c := by
          intro x hx
          cases hp : pred with
          | header => rw [hu', hp, setFwd_header, fwdOf_setHeaderFwd]
          | node m =>
            rw [hu', hp, setFwd_node]
            refine fwdOf_setNodeFwd_ne_node ?_
            intro he
            rw [hp, he] at hx
            exact hx rfl
        have hallc1 : ∀ j', j' ≤ c → tid ∈ Ls j' := by
          intro j' hj'
          rcases Nat.lt_or_ge j' c with h | h
          · exact hallc j' h
          · have : j' = c := by omega
            rw [this]
            exact hpres
        refine ⟨?_, ?_, ?_, ?_, ?_, ?_, ?_, ?_, ?_⟩
        · intro x
          rw [hu'_flen x]
          exact inv.hflen x
        · rw [hu'_hlen]
          exact inv.hhlen
        · rw [hu'_nlen]
          exact inv.hnlen
        · intro x
          rw [hu'_key x]
          exact inv.hkey x
        · intro l
          rw [hu'_entries l]
          exact inv.hentries l
        · refine ⟨?_, ?_, ?_⟩
          · rw [hu'_misc.1]; exact inv.hmisc.1
          · rw [hu'_misc.2.1]; exact inv.hmisc.2.1
          · rw [hu'_misc.2.2]; exact inv.hmisc.2.2
        · constructor
          · intro h; cases h
          · intro ⟨j, hj, hjn⟩
            rcases Nat.lt_or_ge j c with h | h
            · exact absurd (hallc j h) hjn
            · have : j = c := by omega
              exact absurd (this ▸ hpres) hjn
        · intro j hj
          have hjne : j ≠ c := by
            intro he
            exact hj ⟨by omega, he ▸ hallc1⟩
          refine ⟨?_, ?_⟩
          · intro x
            rw [hu'_fwd_ne_level x j hjne]
            refine (inv.hkeep j ?_).1 x
            intro ⟨hjc, hall⟩
            exact hj ⟨by omega, hall⟩
          · rw [hu'_hfwd_ne j hjne]
            refine (inv.hkeep j ?_).2
            intro ⟨hjc, hall⟩
            exact hj ⟨by omega, hall⟩
        · intro j ⟨hj, hall⟩
          rcases Nat.lt_or_ge j c with hjc | hjc
          · -- already processed: frame through this write
            have hprev := inv.hdone j ⟨hjc, hall⟩
            have hframe := Seg.frame
              (fun x _ => hu'_fwd_ne_level x j (by omega)) hprev
            rw [hu'_hfwd_ne j (by omega)]
            exact hframe
          · obtain rfl : j = c := by omega
            rw [hrest_eq]
            rw [show (tid :: rest).tail = rest from rfl]
            have htw_valid : ∀ x ∈ (Ls j).takeWhile (ltK base K),
                x < base.nodes.length := by
              intro x hx
              exact hvalid j x ((List.takeWhile_sublist _).mem hx)
            have hnd_split : ((Ls j).takeWhile (ltK base K) ++
                (Ls j).dropWhile (ltK base K)).Nodup := by
              rw [List.takeWhile_append_dropWhile]
              exact (hLs j).nodup
            have hdisj := List.disjoint_of_nodup_append hnd_split
            have hrest_sub : ∀ x ∈ rest, x ∈ (Ls j).dropWhile (ltK base K) := by
              intro x hx
              rw [hrest_eq]
              exact List.mem_cons_of_mem _ hx
            have hrest_seg : Seg u' j nxt rest none := by
              refine Seg.frame ?_ hsegrest
              intro x hx
              have hxp : pred ≠ Pos.node x := by
                intro hp
                exact hdisj (hpred_node_mem x hp) (hrest_sub x hx)
              rw [hu'_fwd_of_ne x hxp, hkeepc.1 x]
            rcases hqc.pos with ⟨hq, htw⟩ | ⟨m, hm, hq⟩
            · rw [htw, List.nil_append]
              have hhl : j < ucb.1.headerForward.length := by
                rw [inv.hhlen, hw.hlen]
                have := hw.hlev
                omega
              have hh : u'.hfwd j = nxt := by
                rw [hu', hq, setFwd_header]
                exact hfwd_setHeaderFwd_self hhl
              rw [hh]
              exact hrest_seg
            · obtain ⟨A, hA⟩ := getLast?_decomp hm
              have hmtw : m ∈ (Ls j).takeWhile (ltK base K) := getLast?_mem hm
              have hmval : m < base.nodes.length := htw_valid m hmtw
              have hsplit_pre := hqc.split_pre
              rw [hA] at hsplit_pre
              obtain ⟨mid, hSA, hSm⟩ := Seg.split hsplit_pre
              have hmid : mid = some m := hSm.start_some
              subst hmid
              obtain ⟨nxt2, hfwm2, hnil2⟩ := Seg.cons_inv hSm
              have hh : u'.hfwd j = base.hfwd j := by
                rw [hu', hq, setFwd_node, hfwd_setNodeFwd]
                exact hkeepc.2
              have hAnodup : (A ++ [m]).Nodup := by
                rw [← hA]
                exact (List.takeWhile_sublist _).nodup (hLs j).nodup
              have hmA : m ∉ A := by
                intro hxA
                exact (List.disjoint_of_nodup_append hAnodup) hxA
                  (List.mem_singleton_self m)
              have hSA' : Seg u' j (base.hfwd j) A (some m) := by
                refine Seg.frame ?_ hSA
                intro x hx
                have hxm : x ≠ m := fun he => hmA (he ▸ hx)
                have hxp : pred ≠ Pos.node x := by
                  rw [hq]
                  intro h
                  injection h with h
                  exact hxm h.symm
                rw [hu'_fwd_of_ne x hxp, hkeepc.1 x]
              obtain ⟨ndm, hgm, hlm⟩ : ∃ nd, ucb.1.nodes[m]? = some nd ∧
                  j < nd.forward.length := by
                have h2 := inv.hflen m
                have hmem : m ∈ Ls j := (List.takeWhile_sublist _).mem hmtw
                obtain ⟨nd0, hnd0⟩ := (hLs j).get_some m hmem
                have hcl := hw.chain_len j (Ls j) (hLs j) m hmem nd0 hnd0
                rw [hnd0, Option.map_some'] at h2
                cases hg : ucb.1.nodes[m]? with
                | none => rw [hg] at h2; simp at h2
                | some nd =>
                  rw [hg, Option.map_some'] at h2
                  injection h2 with h2
                  exact ⟨nd, rfl, by omega⟩
              have hfwm' : u'.fwdOf m j = some nxt := by
                rw [hu', hq, setFwd_node]
                exact fwdOf_setNodeFwd_self hgm hlm
              rw [hA, hh]
              have hSeg1 : Seg u' j (some m) (m :: rest) none :=
                Seg.cons hfwm' hrest_seg
              have hall2 := Seg.append hSA' hSeg1
              simpa using hall2
      · -- the target is absent at level c: the loop stops here
        have hnottid : ∀ n : Nat, base.fwdAt pred c = some n → n ≠ tid := by
          intro n hn heq
          subst heq
          rw [hfwd_eqc] at hn
          cases hd : (Ls c).dropWhile (ltK base K) with
          | nil => rw [hd] at hn; simp at hn
          | cons a t =>
            rw [hd] at hn
            simp at hn
            subst hn
            exact hpres ((List.dropWhile_sublist _).mem (hd ▸ List.mem_cons_self _ _))
        have hres : SkipList.unlink upd tid (c + 1) base = (ucb.1, true) := by
          rw [hstep, if_neg (by rw [hflagf]; exact Bool.false_ne_true)]
          cases hcv : ucb.1.fwdAt pred c with
          | none => rfl
          | some n =>
            simp [hnottid n (by rw [← hreadc]; exact hcv)]
        rw [hres]
        refine ⟨inv.hflen, inv.hhlen, inv.hnlen, inv.hkey, inv.hentries, inv.hmisc,
          ?_, ?_, ?_⟩
        · constructor
          · intro _; exact ⟨c, by omega, hpres⟩
          · intro _; rfl
        · intro j hj
          refine inv.hkeep j ?_
          intro ⟨hjc, hall⟩
          exact hj ⟨by omega, hall⟩
        · intro j ⟨hj, hall⟩
          rcases Nat.lt_or_ge j c with hjc | hjc
          · exact inv.hdone j ⟨hjc, hall⟩
          · have : j = c := by omega
            exact absurd (hall c (by omega)) hpres

/-! ### `delete` refines deletion from the ordered association list -/

theorem absDelete_not_found {es : List (Int × V)} {K : Int}
    (h : ∀ kv ∈ es, kv.1 ≠ K) : absDelete K es = (false, es) := by
  induction es with
  | nil => rfl
  | cons a t ih =>
    obtain ⟨ak, av⟩ := a
    have ha : ak ≠ K := h (ak, av) (List.mem_cons_self _ _)
    rw [absDelete, if_neg ha, ih (fun kv hkv => h kv (List.mem_cons_of_mem _ hkv))]

theorem absDelete_found {es1 es2 : List (Int × V)} {K : Int} {w : V}
    (h : ∀ kv ∈ es1, kv.1 ≠ K) :
    absDelete K (es1 ++ (K, w) :: es2) = (true, es1 ++ es2) := by
  induction es1 with
  | nil => rw [List.nil_append, absDelete, if_pos rfl, List.nil_append]
  | cons a t ih =>
    obtain ⟨ak, av⟩ := a
    have ha : ak ≠ K := h (ak, av) (List.mem_cons_self _ _)
    rw [List.cons_append, absDelete, if_neg ha,
      ih (fun kv hkv => h kv (List.mem_cons_of_mem _ hkv)), List.cons_append]

theorem delete_correct {s : SkipList V} (hw : WF s) (K : Int) :
    WF (s.delete K).2 ∧
    (s.delete K).1 = (absDelete K s.to_list).1 ∧
    (s.delete K).2.to_list = (absDelete K s.to_list).2 ∧
    (s.delete K).2.maxLevel = s.maxLevel ∧
    (s.delete K).2.probability = s.probability ∧
    ((s.delete K).1 = false → (s.delete K).2 = s) := by
  classical
  choose Ls hLs using hw.chains
  obtain ⟨hulen, hupred, hufst⟩ := descend_spec hw K s.level Pos.header (Or.inl rfl)
  have hq0 : PredAt s K 0
      ((s.descend K s.level Pos.header).2.getD 0 Pos.header) (Ls 0) :=
    hupred 0 (Nat.zero_le _) (Ls 0) (hLs 0)
  have hfwd0 : s.fwdAt (s.descend K s.level Pos.header).1 0 =
      ((Ls 0).dropWhile (ltK s K)).head? := by
    rw [hufst]
    exact hq0.fwd_eq
  have hsorted0 := hw.sorted 0 (Ls 0) (hLs 0)
  have hnodup0 : (Ls 0).Nodup := (hLs 0).nodup
  have hsplit0 : (Ls 0).takeWhile (ltK s K) ++ (Ls 0).dropWhile (ltK s K) = Ls 0 :=
    List.takeWhile_append_dropWhile _ _
  have htwne : ∀ kv ∈ entriesOf s ((Ls 0).takeWhile (ltK s K)), kv.1 ≠ K := by
    intro kv hkv
    obtain ⟨x, hmem, hkeq⟩ := key_of_mem_entriesOf hkv
    have := mem_takeWhile_key_lt (s := s) (K := K) hmem
    rw [hkeq]
    omega
  cases hcur : s.fwdAt (s.descend K s.level Pos.header).1 0 with
  | none =>
    have hdel : s.delete K = (false, s) := by
      rw [SkipList.delete, hcur]
    have hdw0 : (Ls 0).dropWhile (ltK s K) = [] := by
      rw [hcur] at hfwd0
      cases hd : (Ls 0).dropWhile (ltK s K) with
      | nil => rfl
      | cons a t => rw [hd] at hfwd0; simp at hfwd0
    have habs : absDelete K s.to_list = (false, s.to_list) := by
      refine absDelete_not_found ?_
      intro kv hkv
      rw [to_list_eq_entriesOf (hLs 0), ← hsplit0, hdw0, List.append_nil] at hkv
      exact htwne kv hkv
    rw [hdel, habs]
    exact ⟨hw, rfl, rfl, rfl, rfl, fun _ => rfl⟩
  | some nid =>
    rw [hcur] at hfwd0
    obtain ⟨tdw, hdw0⟩ : ∃ t, (Ls 0).dropWhile (ltK s K) = nid :: t := by
      cases hd : (Ls 0).dropWhile (ltK s K) with
      | nil => rw [hd] at hfwd0; simp at hfwd0
      | cons a t =>
        rw [hd] at hfwd0
        simp at hfwd0
        exact ⟨t, by rw [hfwd0]⟩
    have hsegdw : Seg s 0 (some nid) (nid :: tdw) none := by
      have hsp := hq0.split_post
      rw [hq0.fwd_eq, hdw0, List.head?_cons] at hsp
      exact hsp
    obtain ⟨nxt, hfwn, hrest⟩ := Seg.cons_inv hsegdw
    obtain ⟨nd, hg⟩ : ∃ nd, s.nodes[nid]? = some nd := by
      rw [SkipList.fwdOf] at hfwn
      cases hgg : s.nodes[nid]? with
      | none => rw [hgg] at hfwn; simp at hfwn
      | some nd => exact ⟨nd, rfl⟩
    have hkeynid : s.keyD nid = nd.key := by rw [SkipList.keyD, hg]
    by_cases hKa : nd.key = K
    · -- the key is present: really delete it
      have hdel : s.delete K =
          (true,
            { ((SkipList.unlink (s.descend K s.level Pos.header).2 nid
                  (s.level + 1) s).1) with
              level := ((SkipList.unlink (s.descend K s.level Pos.header).2 nid
                  (s.level + 1) s).1).shrinkFrom
                ((SkipList.unlink (s.descend K s.level Pos.header).2 nid
                  (s.level + 1) s).1).level }) := by
        simp only [SkipList.delete, hcur, hg]
        rw [if_pos hKa]
      have hkeyK : s.keyD nid = K := by rw [hkeynid, hKa]
      have inv := unlink_invariant hw hLs
        (fun j hj => hupred j hj (Ls j) (hLs j)) hkeyK (s.level + 1) (le_refl _)
      set u1 := (SkipList.unlink (s.descend K s.level Pos.header).2 nid
        (s.level + 1) s).1 with hu1
      set sD : SkipList V := { u1 with level := u1.shrinkFrom u1.level } with hsD
      have hmono : ∀ (j' j : Nat), j' ≤ j → ∀ x ∈ Ls j, x ∈ Ls j' := by
        intro j' j
        induction j with
        | zero =>
          intro hj x hx
          obtain rfl : j' = 0 := by omega
          exact hx
        | succ n ihn =>
          intro hj x hx
          rcases Nat.lt_or_ge j' (n + 1) with h | h
          · exact ihn (by omega) x (hw.subset n _ _ (hLs (n + 1)) (hLs n) x hx)
          · obtain rfl : j' = n + 1 := by omega
            exact hx
      have hpres_le : ∀ (j : Nat), nid ∈ Ls j → j ≤ s.level := by
        intro j hj
        by_contra h
        have hab := hw.above j (by omega)
        have hseg := hLs j
        rw [hab] at hseg
        rw [hseg.none_inv.1] at hj
        simp at hj
      have htid0 : nid ∈ Ls 0 :=
        (List.dropWhile_sublist _).mem (hdw0 ▸ List.mem_cons_self _ _)
      have hdw_eq : ∀ (j : Nat), nid ∈ Ls j →
          (Ls j).dropWhile (ltK s K) = nid :: ((Ls j).dropWhile (ltK s K)).tail := by
        intro j hj
        have hh := dw_head_present (hw.sorted j (Ls j) (hLs j)) hj hkeyK
        cases hd : (Ls j).dropWhile (ltK s K) with
        | nil => rw [hd] at hh; simp at hh
        | cons a t =>
          rw [hd] at hh
          simp at hh
          rw [hh]
          rfl
      have htail_gt : ∀ (j : Nat), nid ∈ Ls j →
          ∀ x ∈ ((Ls j).dropWhile (ltK s K)).tail, K < s.keyD x := by
        intro j hj x hx
        have hde := hdw_eq j hj
        have hpairdw : ((Ls j).dropWhile (ltK s K)).Pairwise
            (fun a b => s.keyD a < s.keyD b) :=
          (hw.sorted j (Ls j) (hLs j)).sublist (List.dropWhile_sublist _)
        rw [hde] at hpairdw
        have := (List.pairwise_cons.mp hpairdw).1 x (by
          rw [hde] at hx
          exact hx)
        omega
      have hdone_of_present : ∀ (j : Nat), nid ∈ Ls j →
          Seg u1 j (u1.hfwd j)
            ((Ls j).takeWhile (ltK s K) ++ ((Ls j).dropWhile (ltK s K)).tail)
            none := by
        intro j hj
        exact inv.hdone j ⟨by have := hpres_le j hj; omega,
          fun j' hj' => hmono j' j hj' nid hj⟩
      have hkeep_of_absent : ∀ (j : Nat), nid ∉ Ls j →
          (∀ x, u1.fwdOf x j = s.fwdOf x j) ∧ u1.hfwd j = s.hfwd j := by
        intro j hj
        refine inv.hkeep j ?_
        intro ⟨hjc, hall⟩
        exact hj (hall j (le_refl _))
      set NsD : Nat → List Nat := fun j =>
        if nid ∈ Ls j then
          (Ls j).takeWhile (ltK s K) ++ ((Ls j).dropWhile (ltK s K)).tail
        else Ls j with hNsD
      have hchD : ∀ (j : Nat), Seg u1 j (u1.hfwd j) (NsD j) none := by
        intro j
        simp only [hNsD]
        by_cases hj : nid ∈ Ls j
        · rw [if_pos hj]
          exact hdone_of_present j hj
        · rw [if_neg hj]
          have hk := hkeep_of_absent j hj
          rw [hk.2]
          exact Seg.frame (fun x _ => hk.1 x) (hLs j)
      have hNsD_sub : ∀ (j : Nat), ∀ x ∈ NsD j, x ∈ Ls j := by
        intro j x hx
        simp only [hNsD] at hx
        by_cases hj : nid ∈ Ls j
        · rw [if_pos hj] at hx
          rcases List.mem_append.mp hx with h | h
          · exact (List.takeWhile_sublist _).mem h
          · exact (List.dropWhile_sublist _).mem (List.mem_of_mem_tail h)
        · rw [if_neg hj] at hx
          exact hx
      have hkeyD_eq : ∀ (x : Nat), sD.keyD x = s.keyD x := fun x => inv.hkey x
      have hfwdD : ∀ (x j : Nat), sD.fwdOf x j = u1.fwdOf x j := fun x j => rfl
      have hhfwdD : ∀ (j : Nat), sD.hfwd j = u1.hfwd j := fun j => rfl
      have hchSD : ∀ (j : Nat), Seg sD j (sD.hfwd j) (NsD j) none := by
        intro j
        exact @Seg.frame V u1 sD j (u1.hfwd j) none (NsD j) (fun x _ => rfl) (hchD j)
      have hshr := @shrinkFrom_spec V u1 u1.level
      have hu1lev : u1.level = s.level := inv.hmisc.2.1
      have hWF : WF sD := by
        refine WF.of_canonical NsD ?_ ?_ hchSD ?_ ?_ ?_ ?_ ?_
        · show u1.headerForward.length = u1.maxLevel + 1
          rw [inv.hhlen, inv.hmisc.1]
          exact hw.hlen
        · show u1.shrinkFrom u1.level ≤ u1.maxLevel
          have h1 := hshr.1
          rw [inv.hmisc.1]
          rw [hu1lev] at h1
          have := hw.hlev
          omega
        · intro j
          have hsj := hw.sorted j (Ls j) (hLs j)
          have hsubl : (NsD j).Sublist (Ls j) := by
            simp only [hNsD]
            by_cases hj : nid ∈ Ls j
            · rw [if_pos hj]
              have h1 : ((Ls j).takeWhile (ltK s K) ++
                  ((Ls j).dropWhile (ltK s K)).tail).Sublist
                  ((Ls j).takeWhile (ltK s K) ++ (Ls j).dropWhile (ltK s K)) :=
                List.Sublist.append_left (List.tail_sublist _) _
              rw [List.takeWhile_append_dropWhile] at h1
              exact h1
            · rw [if_neg hj]
          refine (hsj.sublist hsubl).imp ?_
          intro a b hab
          rw [hkeyD_eq a, hkeyD_eq b]
          exact hab
        · intro j x hx
          simp only [hNsD] at hx ⊢
          by_cases hj1 : nid ∈ Ls (j + 1)
          · rw [if_pos hj1] at hx
            have hj0 : nid ∈ Ls j := hmono j (j + 1) (by omega) nid hj1
            rw [if_pos hj0]
            rcases List.mem_append.mp hx with htw | htl
            · have hkx : s.keyD x < K := mem_takeWhile_key_lt htw
              have hmemj : x ∈ Ls j := hw.subset j _ _ (hLs (j + 1)) (hLs j) x
                ((List.takeWhile_sublist _).mem htw)
              exact List.mem_append_left _
                (mem_takeWhile_of_lt (hw.sorted j _ (hLs j)) hmemj hkx)
            · have hkx : K < s.keyD x := htail_gt (j + 1) hj1 x htl
              have hmemj : x ∈ Ls j := hw.subset j _ _ (hLs (j + 1)) (hLs j) x
                ((List.dropWhile_sublist _).mem (List.mem_of_mem_tail htl))
              have hxdw : x ∈ (Ls j).dropWhile (ltK s K) :=
                mem_dropWhile_of_not hmemj
                  (by simp only [ltK, decide_eq_false_iff_not]; omega)
              have hde := hdw_eq j hj0
              rw [hde] at hxdw
              rcases List.mem_cons.mp hxdw with rfl | hxt
              · rw [hkeyK] at hkx
                omega
              · exact List.mem_append_right _ hxt
          · rw [if_neg hj1] at hx
            have hmemj : x ∈ Ls j := hw.subset j _ _ (hLs (j + 1)) (hLs j) x hx
            have hxne : x ≠ nid := fun he => hj1 (he ▸ hx)
            by_cases hj0 : nid ∈ Ls j
            · rw [if_pos hj0]
              rw [← List.takeWhile_append_dropWhile (ltK s K) (Ls j)] at hmemj
              rcases List.mem_append.mp hmemj with htw | hdw
              · exact List.mem_append_left _ htw
              · have hde := hdw_eq j hj0
                rw [hde] at hdw
                rcases List.mem_cons.mp hdw with rfl | hxt
                · exact absurd rfl hxne
                · exact List.mem_append_right _ hxt
            · rw [if_neg hj0]
              exact hmemj
        · intro i hi
          show u1.hfwd i = none
          rcases Nat.lt_or_ge s.level i with hgt | hle
          · have hk := inv.hkeep i (by intro ⟨hic, _⟩; omega)
            rw [hk.2]
            exact hw.above i hgt
          · exact hshr.2.1 i hi (by rw [hu1lev]; omega)
        · rcases hshr.2.2 with h0 | hne
          · exact Or.inl h0
          · exact Or.inr hne
        · intro j x hx nd2 hget
          have hmem := hNsD_sub j x hx
          obtain ⟨nd0, hnd0⟩ := (hLs j).get_some x hmem
          have hflen := inv.hflen x
          have hget' : u1.nodes[x]? = some nd2 := hget
          rw [hget', hnd0, Option.map_some', Option.map_some'] at hflen
          injection hflen with hflen
          rw [hflen]
          exact hw.chain_len j (Ls j) (hLs j) x hmem nd0 hnd0
      have hentD : ∀ l, entriesOf sD l = entriesOf s l := fun l => inv.hentries l
      have htolist : sD.to_list = entriesOf s ((Ls 0).takeWhile (ltK s K)) ++
          entriesOf s tdw := by
        have hch0 := hchSD 0
        simp only [hNsD] at hch0
        rw [if_pos htid0] at hch0
        rw [to_list_eq_entriesOf hch0, hentD, entriesOf_append, hdw0]
        rfl
      have habs : absDelete K s.to_list =
          (true, entriesOf s ((Ls 0).takeWhile (ltK s K)) ++ entriesOf s tdw) := by
        rw [to_list_eq_entriesOf (hLs 0)]
        conv_lhs => rw [← hsplit0, hdw0]
        rw [entriesOf_append, entriesOf_cons hg,
          show nd.key = K from hKa]
        exact absDelete_found htwne
      rw [hdel, habs]
      refine ⟨hWF, rfl, htolist, ?_, ?_, ?_⟩
      · show u1.maxLevel = s.maxLevel
        exact inv.hmisc.1
      · show u1.probability = s.probability
        exact inv.hmisc.2.2
      · intro h
        cases h
    · -- the searched key differs from the found node's key: nothing deleted
      have hdel : s.delete K = (false, s) := by
        simp only [SkipList.delete, hcur, hg]
        rw [if_neg hKa]
      have hnfkeys : ∀ x ∈ Ls 0, s.keyD x ≠ K := by
        intro x hx
        rw [← hsplit0] at hx
        rcases List.mem_append.mp hx with htw | hdw
        · have := mem_takeWhile_key_lt (s := s) (K := K) htw
          omega
        · rw [hdw0] at hdw
          rcases List.mem_cons.mp hdw with rfl | hdw'
          · rw [hkeynid]
            exact hKa
          · have hsortedw : (nid :: tdw).Pairwise (fun a b => s.keyD a < s.keyD b) := by
              rw [← hdw0]
              exact hsorted0.sublist (List.dropWhile_sublist _)
            have hlt := (List.pairwise_cons.mp hsortedw).1 x hdw'
            have hnidge : K ≤ s.keyD nid := by
              have hh := dropWhile_head_not hdw0
              simp only [ltK, decide_eq_false_iff_not] at hh
              omega
            omega
      have habs : absDelete K s.to_list = (false, s.to_list) := by
        refine absDelete_not_found ?_
        intro kv hkv
        rw [to_list_eq_entriesOf (hLs 0)] at hkv
        obtain ⟨x, hmem, hkeq⟩ := key_of_mem_entriesOf hkv
        rw [hkeq]
        exact hnfkeys x hmem
      rw [hdel, habs]
      exact ⟨hw, rfl, rfl, rfl, rfl, fun _ => rfl⟩

/-! ### `insert` with a random draw, and reachable states -/

theorem random_level_le {p : Rat} {maxLevel : Nat} {draws : Nat → Rat} :
    random_level p (maxLevel : Int) draws ≤ maxLevel := by
  have h := rlGo_le p (maxLevel : Int) draws ((maxLevel : Int)).toNat 0 0
    (by exact_mod_cast Nat.zero_le maxLevel)
  rw [random_level]
  exact_mod_cast h

theorem insert_correct {s : SkipList V} (hw : WF s) (K : Int) (v : V)
    (draws : Nat → Rat) :
    WF (s.insert K v draws) ∧
    (s.insert K v draws).to_list = absInsert K v s.to_list ∧
    (s.insert K v draws).maxLevel = s.maxLevel ∧
    (s.insert K v draws).probability = s.probability :=
  insertAt_correct hw K v random_level_le

theorem Reachable.wf {maxLevel : Nat} {p : Rat} {s : SkipList V}
    (h : Reachable maxLevel p s) : WF s := by
  induction h with
  | empty => exact WF_empty maxLevel p
  | ins K v draws _ ih => exact (insert_correct ih K v draws).1
  | del K _ ih => exact (delete_correct ih K).1

theorem Reachable.foldl_ins {maxLevel : Nat} {p : Rat} {s : SkipList V}
    (h : Reachable maxLevel p s) (ops : List (Int × V × (Nat → Rat))) :
    Reachable maxLevel p
      (ops.foldl (fun acc x => acc.insert x.1 x.2.1 x.2.2) s) := by
  induction ops generalizing s with
  | nil => exact h
  | cons a t ih => exact ih (h.ins a.1 a.2.1 a.2.2)

theorem to_list_foldl_ins {maxLevel : Nat} {p : Rat}
    (ops : List (Int × V × (Nat → Rat))) :
    ∀ {s : SkipList V}, Reachable maxLevel p s →
      (ops.foldl (fun acc x => acc.insert x.1 x.2.1 x.2.2) s).to_list =
        ops.foldl (fun acc x => absInsert x.1 x.2.1 acc) s.to_list := by
  induction ops with
  | nil => intro s _; rfl
  | cons a t ih =>
    intro s h
    rw [List.foldl_cons, List.foldl_cons,
      ih (h.ins a.1 a.2.1 a.2.2),
      (insert_correct h.wf a.1 a.2.1 a.2.2).2.1]

/-! ### Keys of the ordered contents -/

theorem entriesOf_keys {s : SkipList V} {l : List Nat}
    (h : ∀ x ∈ l, ∃ nd, s.nodes[x]? = some nd) :
    (entriesOf s l).map Prod.fst = l.map s.keyD := by
  induction l with
  | nil => rfl
  | cons a t ih =>
    obtain ⟨nd, hnd⟩ := h a (List.mem_cons_self _ _)
    rw [entriesOf_cons hnd, List.map_cons, List.map_cons,
      ih (fun x hx => h x (List.mem_cons_of_mem _ hx))]
    rw [show s.keyD a = nd.key from by rw [SkipList.keyD, hnd]]

theorem to_list_keys_sorted {s : SkipList V} (hw : WF s) :
    (s.to_list.map Prod.fst).Pairwise (fun a b => a < b) := by
  obtain ⟨L0, hL0⟩ := hw.chains 0
  rw [to_list_eq_entriesOf hL0, entriesOf_keys hL0.get_some]
  rw [List.pairwise_map]
  exact hw.sorted 0 L0 hL0

/-! ### Abstract association-list lemmas -/

theorem absSearch_absInsert_self {m : List (Int × V)} {K : Int} {v : V} :
    absSearch K (absInsert K v m) = some v := by
  induction m with
  | nil => rw [absInsert, absSearch, if_pos rfl]
  | cons a t ih =>
    obtain ⟨ak, av⟩ := a
    rw [absInsert]
    by_cases h1 : K < ak
    · rw [if_pos h1, absSearch, if_pos rfl]
    · rw [if_neg h1]
      by_cases h2 : K = ak
      · rw [if_pos h2, absSearch, if_pos rfl]
      · rw [if_neg h2, absSearch, if_neg (fun he => h2 he.symm)]
        exact ih

theorem absSearch_absInsert_ne {m : List (Int × V)} {K K' : Int} {v : V}
    (h : K' ≠ K) : absSearch K' (absInsert K v m) = absSearch K' m := by
  induction m with
  | nil => rw [absInsert, absSearch, absSearch, if_neg (fun he => h he.symm), absSearch]
  | cons a t ih =>
    obtain ⟨ak, av⟩ := a
    rw [absInsert]
    by_cases h1 : K < ak
    · rw [if_pos h1, absSearch, if_neg (fun he => h he.symm)]
    · rw [if_neg h1]
      by_cases h2 : K = ak
      · rw [if_pos h2, absSearch, if_neg (fun he => h he.symm)]
        rw [absSearch, if_neg (fun he => h (h2.trans he).symm)]
      · rw [if_neg h2, absSearch, absSearch]
        by_cases hak : ak = K'
        · rw [if_pos hak, if_pos hak]
        · rw [if_neg hak, if_neg hak]
          exact ih

theorem absSearch_none_keys {es : List (Int × V)} {K : Int}
    (h : absSearch K es = none) : ∀ kv ∈ es, kv.1 ≠ K := by
  induction es with
  | nil => simp
  | cons a t ih =>
    obtain ⟨ak, av⟩ := a
    rw [absSearch] at h
    by_cases hak : ak = K
    · rw [if_pos hak] at h
      exact absurd h (by simp)
    · rw [if_neg hak] at h
      intro kv hkv
      rcases List.mem_cons.mp hkv with rfl | hm
      · exact hak
      · exact ih h kv hm

theorem absDelete_len {es : List (Int × V)} {K : Int}
    (h : (absDelete K es).1 = true) :
    ((absDelete K es).2).length + 1 = es.length := by
  induction es with
  | nil => exact absurd h (by rw [absDelete]; simp)
  | cons a t ih =>
    obtain ⟨ak, av⟩ := a
    rw [absDelete] at h ⊢
    by_cases hak : ak = K
    · rw [if_pos hak]
      rfl
    · rw [if_neg hak] at h ⊢
      rw [List.length_cons, List.length_cons, ih h]

theorem absSearch_absDelete_self {es : List (Int × V)} {K : Int}
    (hs : (es.map Prod.fst).Pairwise (fun a b => a < b)) :
    absSearch K (absDelete K es).2 = none := by
  induction es with
  | nil => rfl
  | cons a t ih =>
    obtain ⟨ak, av⟩ := a
    rw [List.map_cons, List.pairwise_cons] at hs
    rw [absDelete]
    by_cases hak : ak = K
    · rw [if_pos hak]
      refine absSearch_eq_none (fun kv hkv => ?h)
      have := hs.1 kv.1 (List.mem_map_of_mem Prod.fst hkv)
      omega
    · rw [if_neg hak, absSearch, if_neg hak]
      exact ih hs.2

theorem map_id_of_ne {es : List (Int × V)} {K : Int} {v : V}
    (h : ∀ kv ∈ es, kv.1 ≠ K) :
    es.map (fun kv => if kv.1 = K then (K, v) else kv) = es := by
  induction es with
  | nil => rfl
  | cons a t ih =>
    rw [List.map_cons, if_neg (h a (List.mem_cons_self _ _)),
      ih (fun kv hkv => h kv (List.mem_cons_of_mem _ hkv))]

theorem absInsert_present_map {es : List (Int × V)} {K : Int} {v v1 : V}
    (hs : (es.map Prod.fst).Pairwise (fun a b => a < b))
    (hf : absSearch K es = some v1) :
    absInsert K v es = es.map (fun kv => if kv.1 = K then (K, v) else kv) := by
  induction es with
  | nil => exact absurd hf (by rw [absSearch]; simp)
  | cons a t ih =>
    obtain ⟨ak, av⟩ := a
    rw [List.map_cons, List.pairwise_cons] at hs
    rw [absSearch] at hf
    rw [absInsert, List.map_cons]
    by_cases hak : ak = K
    · rw [if_neg (by omega), if_pos hak.symm]
      have hne : ∀ kv ∈ t, kv.1 ≠ K := by
        intro kv hkv
        have := hs.1 kv.1 (List.mem_map_of_mem Prod.fst hkv)
        omega
      rw [show (if ((ak, av) : Int × V).1 = K then (K, v) else (ak, av)) =
            (K, v) from by rw [if_pos hak], map_id_of_ne hne]
    · rw [if_neg hak] at hf
      have hKak : ¬ K < ak := by
        intro hlt
        have : absSearch K t = none := by
          refine absSearch_eq_none (fun kv hkv => ?h)
          have := hs.1 kv.1 (List.mem_map_of_mem Prod.fst hkv)
          omega
        rw [this] at hf
        exact Option.noConfusion hf
      rw [if_neg hKak, if_neg (fun he => hak he.symm),
        show (if ((ak, av) : Int × V).1 = K then (K, v) else (ak, av)) =
          (ak, av) from by rw [if_neg hak], ih hs.2 hf]

theorem absSearch_foldl_not_mem {K : Int} :
    ∀ (kvs : List (Int × V × (Nat → Rat))) (m : List (Int × V)),
      K ∉ kvs.map (fun x => x.1) →
      absSearch K (kvs.foldl (fun acc x => absInsert x.1 x.2.1 acc) m) =
        absSearch K m := by
  intro kvs
  induction kvs with
  | nil => intro m _; rfl
  | cons a t ih =>
    intro m hK
    rw [List.map_cons, List.mem_cons] at hK
    push_neg at hK
    rw [List.foldl_cons, ih _ hK.2, absSearch_absInsert_ne hK.1]

theorem absSearch_foldl_mem {kvs : List (Int × V × (Nat → Rat))}
    (hnd : (kvs.map (fun x => x.1)).Nodup) :
    ∀ (m : List (Int × V)), ∀ kv ∈ kvs,
      absSearch kv.1 (kvs.foldl (fun acc x => absInsert x.1 x.2.1 acc) m) =
        some kv.2.1 := by
  induction kvs with
  | nil => intro m kv h; cases h
  | cons a t ih =>
    rw [List.map_cons, List.nodup_cons] at hnd
    intro m kv hkv
    rw [List.foldl_cons]
    rcases List.mem_cons.mp hkv with rfl | hm
    · rw [absSearch_foldl_not_mem t _ hnd.1, absSearch_absInsert_self]
    · exact ih hnd.2 _ kv hm

/-! ### Observable outputs are independent of the random draws -/

theorem stepOp_eq {s1 s2 : SkipList V} (h1 : WF s1) (h2 : WF s2)
    (heq : s1.to_list = s2.to_list) (d1 d2 : Nat → Rat) (op : Op V) :
    (stepOp s1 d1 op).1 = (stepOp s2 d2 op).1 ∧
    WF (stepOp s1 d1 op).2 ∧ WF (stepOp s2 d2 op).2 ∧
    (stepOp s1 d1 op).2.to_list = (stepOp s2 d2 op).2.to_list := by
  cases op with
  | ins k v =>
    have i1 := insert_correct h1 k v d1
    have i2 := insert_correct h2 k v d2
    refine ⟨rfl, i1.1, i2.1, ?_⟩
    show (s1.insert k v d1).to_list = (s2.insert k v d2).to_list
    rw [i1.2.1, i2.2.1, heq]
  | del k =>
    have c1 := delete_correct h1 k
    have c2 := delete_correct h2 k
    refine ⟨?_, c1.1, c2.1, ?_⟩
    · show Out.flag (s1.delete k).1 = Out.flag (s2.delete k).1
      rw [c1.2.1, c2.2.1, heq]
    · show (s1.delete k).2.to_list = (s2.delete k).2.to_list
      rw [c1.2.2.1, c2.2.2.1, heq]
  | find k =>
    refine ⟨?_, h1, h2, heq⟩
    show Out.val (s1.search k) = Out.val (s2.search k)
    rw [search_eq_absSearch h1 k, search_eq_absSearch h2 k, heq]
  | count =>
    refine ⟨?_, h1, h2, heq⟩
    show Out.num s1.size = Out.num s2.size
    rw [size_eq_to_list_length, size_eq_to_list_length, heq]
  | dump =>
    refine ⟨?_, h1, h2, heq⟩
    show Out.seq s1.to_list = Out.seq s2.to_list
    rw [heq]

theorem runOps_eq :
    ∀ (ops : List (Op V)) {s1 s2 : SkipList V} (d1 d2 : Nat → Nat → Rat),
      WF s1 → WF s2 → s1.to_list = s2.to_list →
      (runOps ops d1 s1).1 = (runOps ops d2 s2).1 := by
  intro ops
  induction ops with
  | nil => intro s1 s2 d1 d2 _ _ _; rfl
  | cons op t ih =>
    intro s1 s2 d1 d2 h1 h2 heq
    obtain ⟨hf, hw1, hw2, hteq⟩ := stepOp_eq h1 h2 heq (d1 0) (d2 0) op
    simp only [runOps]
    rw [hf, ih (fun n => d1 (n + 1)) (fun n => d2 (n + 1)) hw1 hw2 hteq]

/-! ### The claims -/

/-- C1: inserting each key of a duplicate-free key list exactly once (each
with an associated value and an arbitrary draw stream), starting from a
fresh skip list, and then calling `search` on any of those keys returns
that key's associated value unchanged. -/
theorem C1_round_trip (V : Type) (maxLevel : Nat) (p : Rat)
    (kvs : List (Int × V × (Nat → Rat)))
    (hnd : (kvs.map (fun x => x.1)).Nodup) :
    ∀ kvd ∈ kvs,
      ((kvs.foldl (fun acc x => acc.insert x.1 x.2.1 x.2.2)
        (SkipList.empty V maxLevel p)).search kvd.1) = some kvd.2.1 := by
  intro kvd hkvd
  have hr : Reachable maxLevel p
      (kvs.foldl (fun acc x => acc.insert x.1 x.2.1 x.2.2)
        (SkipList.empty V maxLevel p)) :=
    Reachable.foldl_ins Reachable.empty kvs
  rw [search_eq_absSearch hr.wf kvd.1,
    to_list_foldl_ins kvs Reachable.empty, to_list_empty]
  exact absSearch_foldl_mem hnd [] kvd hkvd

theorem C1_round_trip_witness :
    ((([(1, 10, fun _ => 0), (5, 20, fun _ => 0), (3, 30, fun _ => 0)] :
        List (Int × Int × (Nat → Rat))).map (fun x => x.1)).Nodup) ∧
    (∀ kvd ∈ ([(1, 10, fun _ => 0), (5, 20, fun _ => 0), (3, 30, fun _ => 0)] :
        List (Int × Int × (Nat → Rat))),
      ((([(1, 10, fun _ => 0), (5, 20, fun _ => 0), (3, 30, fun _ => 0)] :
          List (Int × Int × (Nat → Rat))).foldl
          (fun acc x => acc.insert x.1 x.2.1 x.2.2)
        (SkipList.empty Int 4 (1/2))).search kvd.1) = some kvd.2.1) :=
  ⟨by decide, C1_round_trip Int 4 (1/2) _ (by decide)⟩

/-- C2: after any sequence of inserts (each with an arbitrary draw stream)
starting from a fresh skip list, `to_list` yields pairs whose keys are
strictly increasing. -/
theorem C2_order_invariant (V : Type) (maxLevel : Nat) (p : Rat)
    (kvs : List (Int × V × (Nat → Rat))) :
    (((kvs.foldl (fun acc x => acc.insert x.1 x.2.1 x.2.2)
        (SkipList.empty V maxLevel p)).to_list).map Prod.fst).Pairwise
      (fun a b => a < b) :=
  to_list_keys_sorted (Reachable.foldl_ins Reachable.empty kvs).wf

/-- C3: on any reachable skip list state, if `delete K` reports `true` then
afterwards `search K` reports not-found and `size` is exactly one less than
before, and if `K` was absent (`search K = none`) then `delete K` reports
`false` and returns the state literally unchanged. -/
theorem C3_delete_correct {maxLevel : Nat} {p : Rat} {s : SkipList V}
    (h : Reachable maxLevel p s) (K : Int) :
    ((s.delete K).1 = true →
      (s.delete K).2.search K = none ∧ (s.delete K).2.size + 1 = s.size) ∧
    (s.search K = none → (s.delete K).1 = false ∧ (s.delete K).2 = s) := by
  have hw := h.wf
  have dc := delete_correct hw K
  constructor
  · intro htrue
    have habs : (absDelete K s.to_list).1 = true := by rw [← dc.2.1]; exact htrue
    constructor
    · rw [search_eq_absSearch dc.1 K, dc.2.2.1]
      exact absSearch_absDelete_self (to_list_keys_sorted hw)
    · rw [size_eq_to_list_length, size_eq_to_list_length, dc.2.2.1]
      exact absDelete_len habs
  · intro hnone
    rw [search_eq_absSearch hw K] at hnone
    have hkeys := absSearch_none_keys hnone
    have hfalse : (s.delete K).1 = false := by
      rw [dc.2.1, absDelete_not_found hkeys]
    exact ⟨hfalse, dc.2.2.2.2.2 hfalse⟩

theorem C3_delete_correct_witness :
    ((((SkipList.empty Int 3 (1/2)).insert 5 7 (fun _ => 0)).delete 5).1 = true →
      ((((SkipList.empty Int 3 (1/2)).insert 5 7 (fun _ => 0)).delete 5).2.search 5 = none ∧
       (((SkipList.empty Int 3 (1/2)).insert 5 7 (fun _ => 0)).delete 5).2.size + 1 =
         ((SkipList.empty Int 3 (1/2)).insert 5 7 (fun _ => 0)).size)) ∧
    (((SkipList.empty Int 3 (1/2)).insert 5 7 (fun _ => 0)).search 5 = none →
      (((SkipList.empty Int 3 (1/2)).insert 5 7 (fun _ => 0)).delete 5).1 = false ∧
      (((SkipList.empty Int 3 (1/2)).insert 5 7 (fun _ => 0)).delete 5).2 =
        (SkipList.empty Int 3 (1/2)).insert 5 7 (fun _ => 0)) :=
  C3_delete_correct (Reachable.ins 5 7 (fun _ => 0) Reachable.empty) 5

/-- C4: on any reachable skip list state containing key `K` with value
`v1`, inserting `(K, v2)` overwrites the value in place: `size` is
unchanged, `search K` returns `v2`, and the ordered sequence differs only
in the value paired with `K`. -/
theorem C4_update_in_place {maxLevel : Nat} {p : Rat} {s : SkipList V}
    (h : Reachable maxLevel p s) (K : Int) (v1 v2 : V) (draws : Nat → Rat)
    (hfound : s.search K = some v1) :
    (s.insert K v2 draws).size = s.size ∧
    (s.insert K v2 draws).search K = some v2 ∧
    (s.insert K v2 draws).to_list =
      s.to_list.map (fun kv => if kv.1 = K then (K, v2) else kv) := by
  have hw := h.wf
  have ic := insert_correct hw K v2 draws
  rw [search_eq_absSearch hw K] at hfound
  have hmap := @absInsert_present_map V s.to_list K v2 v1 (to_list_keys_sorted hw) hfound
  refine ⟨?_, ?_, ?_⟩
  · rw [size_eq_to_list_length, size_eq_to_list_length, ic.2.1, hmap,
      List.length_map]
  · rw [search_eq_absSearch ic.1 K, ic.2.1, absSearch_absInsert_self]
  · rw [ic.2.1, hmap]

theorem C4_update_in_place_witness :
    ((((SkipList.empty Int 3 0).insert 5 7 (fun _ => 0)).insert 5 9
        (fun _ => 0)).size =
      ((SkipList.empty Int 3 0).insert 5 7 (fun _ => 0)).size) ∧
    ((((SkipList.empty Int 3 0).insert 5 7 (fun _ => 0)).insert 5 9
        (fun _ => 0)).search 5 = some 9) ∧
    ((((SkipList.empty Int 3 0).insert 5 7 (fun _ => 0)).insert 5 9
        (fun _ => 0)).to_list =
      (((SkipList.empty Int 3 0).insert 5 7 (fun _ => 0)).to_list).map
        (fun kv => if kv.1 = 5 then ((5 : Int), (9 : Int)) else kv)) :=
  C4_update_in_place (Reachable.ins 5 7 (fun _ => 0) Reachable.empty) 5 7 9
    (fun _ => 0) (by decide)

/-- C6: every reachable skip list state satisfies the level invariant:
`current_level ≤ max_level`; every header forward link strictly above
`current_level` is null, so the chain at such a level is empty (no node is
reachable there); and `current_level` is either `0` or has a non-null
header link (the shrink step of `delete` maintains this). -/
theorem C6_level_invariant {maxLevel : Nat} {p : Rat} {s : SkipList V}
    (h : Reachable maxLevel p s) :
    s.level ≤ s.maxLevel ∧
    (∀ i, s.level < i → s.hfwd i = none) ∧
    (∀ i l, s.level < i → Seg s i (s.hfwd i) l none → l = []) ∧
    (s.level = 0 ∨ s.hfwd s.level ≠ none) := by
  have hw := h.wf
  refine ⟨hw.hlev, hw.above, ?_, hw.top⟩
  intro i l hi hseg
  rw [hw.above i hi] at hseg
  cases hseg with
  | nil => rfl

theorem C6_level_invariant_witness :
    ((((SkipList.empty Int 3 (1/2)).insert 5 7 (fun _ => 0)).delete 5).2.level ≤
      (((SkipList.empty Int 3 (1/2)).insert 5 7 (fun _ => 0)).delete 5).2.maxLevel) ∧
    (∀ i, (((SkipList.empty Int 3 (1/2)).insert 5 7 (fun _ => 0)).delete 5).2.level < i →
      (((SkipList.empty Int 3 (1/2)).insert 5 7 (fun _ => 0)).delete 5).2.hfwd i = none) ∧
    (∀ i l, (((SkipList.empty Int 3 (1/2)).insert 5 7 (fun _ => 0)).delete 5).2.level < i →
      Seg (((SkipList.empty Int 3 (1/2)).insert 5 7 (fun _ => 0)).delete 5).2 i
        ((((SkipList.empty Int 3 (1/2)).insert 5 7 (fun _ => 0)).delete 5).2.hfwd i)
        l none → l = []) ∧
    ((((SkipList.empty Int 3 (1/2)).insert 5 7 (fun _ => 0)).delete 5).2.level = 0 ∨
      (((SkipList.empty Int 3 (1/2)).insert 5 7 (fun _ => 0)).delete 5).2.hfwd
        (((SkipList.empty Int 3 (1/2)).insert 5 7 (fun _ => 0)).delete 5).2.level ≠ none) :=
  C6_level_invariant (Reachable.del 5 (Reachable.ins 5 7 (fun _ => 0) Reachable.empty))

/-- C9: on any reachable skip list state (including the fresh empty list),
for a key `K` not present in the contents, `search K` returns `none` and
`delete K` returns `false` with the state literally unchanged; both are
total functions, so neither raises a fault. -/
theorem C9_absent_key {maxLevel : Nat} {p : Rat} {s : SkipList V}
    (h : Reachable maxLevel p s) (K : Int)
    (habs : K ∉ s.to_list.map Prod.fst) :
    s.search K = none ∧ (s.delete K).1 = false ∧ (s.delete K).2 = s := by
  have hw := h.wf
  have hkeys : ∀ kv ∈ s.to_list, kv.1 ≠ K := by
    intro kv hkv he
    exact habs (he ▸ List.mem_map_of_mem Prod.fst hkv)
  have dc := delete_correct hw K
  have hfalse : (s.delete K).1 = false := by
    rw [dc.2.1, absDelete_not_found hkeys]
  refine ⟨?_, hfalse, dc.2.2.2.2.2 hfalse⟩
  rw [search_eq_absSearch hw K]
  exact absSearch_eq_none hkeys

theorem C9_absent_key_witness :
    (((SkipList.empty Int 3 0).insert 5 7 (fun _ => 0)).search 35 = none) ∧
    ((((SkipList.empty Int 3 0).insert 5 7 (fun _ => 0)).delete 35).1 = false) ∧
    ((((SkipList.empty Int 3 0).insert 5 7 (fun _ => 0)).delete 35).2 =
      (SkipList.empty Int 3 0).insert 5 7 (fun _ => 0)) :=
  C9_absent_key (Reachable.ins 5 7 (fun _ => 0) Reachable.empty) 35 (by decide)

/-- C10: for any fixed sequence of operations run from a fresh skip list,
the list of observable outputs (search results, delete flags, size counts,
`to_list` sequences) is identical for any two families of random draw
streams: the draws affect only the internal level structure. -/
theorem C10_output_deterministic (V : Type) (maxLevel : Nat) (p : Rat)
    (ops : List (Op V)) (d1 d2 : Nat → Nat → Rat) :
    (runOps ops d1 (SkipList.empty V maxLevel p)).1 =
    (runOps ops d2 (SkipList.empty V maxLevel p)).1 :=
  runOps_eq ops d1 d2 (WF_empty maxLevel p) (WF_empty maxLevel p) rfl

/-- C5: the concrete demo scenario.  From a fresh skip list (`max_level`
16, probability 1/2), inserting (10,"Apple"), (20,"Banana"), (5,"Cherry"),
(30,"Date"), (15,"Elderberry"), (25,"Fig") in that order yields `size = 6`
and the sorted sequence [(5,"Cherry"), (10,"Apple"), (15,"Elderberry"),
(20,"Banana"), (25,"Fig"), (30,"Date")], with `search 15 = "Elderberry"`
and `search 35` not found; then deleting 20, 35, 5 reports true, false,
true and leaves [(10,"Apple"), (15,"Elderberry"), (25,"Fig"),
(30,"Date")] — for every choice of the six random draw streams. -/
theorem C5_concrete_scenario (d1 d2 d3 d4 d5 d6 : Nat → Rat) :
    (scenarioInserted d1 d2 d3 d4 d5 d6).size = 6 ∧
    (scenarioInserted d1 d2 d3 d4 d5 d6).to_list =
      [(5, "Cherry"), (10, "Apple"), (15, "Elderberry"), (20, "Banana"),
       (25, "Fig"), (30, "Date")] ∧
    (scenarioInserted d1 d2 d3 d4 d5 d6).search 15 = some "Elderberry" ∧
    (scenarioInserted d1 d2 d3 d4 d5 d6).search 35 = none ∧
    ((scenarioInserted d1 d2 d3 d4 d5 d6).delete 20).1 = true ∧
    (((scenarioInserted d1 d2 d3 d4 d5 d6).delete 20).2.delete 35).1 = false ∧
    ((((scenarioInserted d1 d2 d3 d4 d5 d6).delete 20).2.delete 35).2.delete 5).1 = true ∧
    ((((scenarioInserted d1 d2 d3 d4 d5 d6).delete 20).2.delete 35).2.delete 5).2.to_list =
      [(10, "Apple"), (15, "Elderberry"), (25, "Fig"), (30, "Date")] := by
  have h0 : WF (SkipList.empty String 16 (1/2)) := WF_empty 16 (1/2)
  have i1 := insert_correct h0 10 "Apple" d1
  have i2 := insert_correct i1.1 20 "Banana" d2
  have i3 := insert_correct i2.1 5 "Cherry" d3
  have i4 := insert_correct i3.1 30 "Date" d4
  have i5 := insert_correct i4.1 15 "Elderberry" d5
  have i6 := insert_correct i5.1 25 "Fig" d6
  have hw6 : WF (scenarioInserted d1 d2 d3 d4 d5 d6) := by
    rw [scenarioInserted]
    exact i6.1
  have hto : (scenarioInserted d1 d2 d3 d4 d5 d6).to_list =
      [(5, "Cherry"), (10, "Apple"), (15, "Elderberry"), (20, "Banana"),
       (25, "Fig"), (30, "Date")] := by
    rw [scenarioInserted, i6.2.1, i5.2.1, i4.2.1, i3.2.1, i2.2.1, i1.2.1,
      to_list_empty]
    rfl
  have hsize : (scenarioInserted d1 d2 d3 d4 d5 d6).size = 6 := by
    rw [size_eq_to_list_length, hto]
    rfl
  have hs15 : (scenarioInserted d1 d2 d3 d4 d5 d6).search 15 =
      some "Elderberry" := by
    rw [search_eq_absSearch hw6 15, hto]
    rfl
  have hs35 : (scenarioInserted d1 d2 d3 d4 d5 d6).search 35 = none := by
    rw [search_eq_absSearch hw6 35, hto]
    rfl
  have dc1 := delete_correct hw6 20
  have hd20 : ((scenarioInserted d1 d2 d3 d4 d5 d6).delete 20).1 = true := by
    rw [dc1.2.1, hto]
    rfl
  have hto7 : ((scenarioInserted d1 d2 d3 d4 d5 d6).delete 20).2.to_list =
      [(5, "Cherry"), (10, "Apple"), (15, "Elderberry"), (25, "Fig"),
       (30, "Date")] := by
    rw [dc1.2.2.1, hto]
    rfl
  have dc2 := delete_correct dc1.1 35
  have hd35 : (((scenarioInserted d1 d2 d3 d4 d5 d6).delete 20).2.delete
      35).1 = false := by
    rw [dc2.2.1, hto7]
    rfl
  have hto8 : (((scenarioInserted d1 d2 d3 d4 d5 d6).delete 20).2.delete
      35).2.to_list =
      [(5, "Cherry"), (10, "Apple"), (15, "Elderberry"), (25, "Fig"),
       (30, "Date")] := by
    rw [dc2.2.2.1, hto7]
    rfl
  have dc3 := delete_correct dc2.1 5
  have hd5 : ((((scenarioInserted d1 d2 d3 d4 d5 d6).delete 20).2.delete
      35).2.delete 5).1 = true := by
    rw [dc3.2.1, hto8]
    rfl
  have hto9 : ((((scenarioInserted d1 d2 d3 d4 d5 d6).delete 20).2.delete
      35).2.delete 5).2.to_list =
      [(10, "Apple"), (15, "Elderberry"), (25, "Fig"), (30, "Date")] := by
    rw [dc3.2.2.1, hto8]
    rfl
  exact ⟨hsize, hto, hs15, hs35, hd20, hd35, hd5, hto9⟩

end SkipListVerify
